import Mathlib

/-!
A shallow embedding of `HashMap<KeyType, ValueType, Hash>` (src/hash_map.cpp).

The C++ class keeps an open-addressing probe table (`data`, `used`, `deleted`)
next to a `std::list` of entries (`elements`); a slot of `data` stores a
`std::list` iterator, i.e. the address of a list node.

Modelling decisions:

* `std::vector` is a `List`; an out-of-range index is undefined behaviour and
  makes the operation return `none`.
* A `std::list` node is a `Node` carrying its address; a list iterator is an
  `Iter` (a value-initialised iterator, a node address, or `end()`).
  Dereferencing an iterator whose node is not in the list is undefined
  behaviour (`none`).  Node addresses come from a bump allocator (`heap`),
  so a dangling iterator never aliases a later node.
* `while` loops take fuel equal to the table size: a probe that has not
  stopped after visiting every slot never stops, so `none` also stands for
  non-termination.
* `size_t` is `Nat`: `cnt` and the capacity are bounded by the memory that the
  table occupies, so `cnt * LOAD_FACTOR` and `data.size() * 2` do not wrap.
* `KeyType`'s `operator==` is decidable equality; `Hash` is a function to `Nat`.
-/

namespace HM

/-- Iterator of `std::list<std::pair<const KeyType, ValueType>>`. -/
inductive Iter where
  | null : Iter
  | node (addr : Nat) : Iter
  | past : Iter
deriving DecidableEq, Repr

/-- One node of the `std::list`: its address and the stored pair. -/
structure Node (K V : Type) where
  addr : Nat
  key : K
  val : V
deriving DecidableEq, Repr

/-- The data members of `HashMap` (lines 187-194), plus the allocator state. -/
structure HashMap (K V : Type) where
  cnt : Nat
  data : List Iter
  used : List Bool
  deleted : List Bool
  elements : List (Node K V)
  hasher : K → Nat
  heap : Nat

/-- Member `SZ` (line 187). -/
def SZ : Nat := 3

/-- Member `LOAD_FACTOR` (line 188). -/
def LOAD_FACTOR : Nat := 3

variable {K V : Type}

/-- The pair stored in a node, as `operator*` of the iterator returns it. -/
def Node.entry (n : Node K V) : K × V := (n.key, n.val)

/-- Dereference of a list iterator (`*it`, `it->first`, `it->second`). -/
def deref (elements : List (Node K V)) : Iter → Option (Node K V)
  | Iter.node a => elements.find? (fun n => decide (n.addr = a))
  | _ => none

/-- Constructor `HashMap(Hash hasher)` (lines 8-14). -/
def HashMap.new (hasher : K → Nat) : HashMap K V :=
  { cnt := 0
    data := List.replicate SZ Iter.null
    used := List.replicate SZ false
    deleted := List.replicate SZ false
    elements := []
    hasher := hasher
    heap := 0 }

/-- Method `size` (lines 63-65). -/
def size (m : HashMap K V) : Nat := m.elements.length

/-- Method `empty` (lines 66-68). -/
def empty (m : HashMap K V) : Bool := size m == 0

/-- The entries met when iterating from `begin()` to `end()` (lines 128-139). -/
def iterate (m : HashMap K V) : List (K × V) := m.elements.map Node.entry

/-- Method `get_key` (lines 246-249). -/
def get_key (m : HashMap K V) (id : Nat) : Option K :=
  match m.data[id]? with
  | none => none
  | some t =>
    match deref m.elements t with
    | none => none
    | some n => some n.key

/-- The `while` loop of `find_id` (lines 198-203); the first argument is fuel. -/
def find_idLoop [DecidableEq K] (m : HashMap K V) (key : K) : Nat → Nat → Option Nat
  | 0, _ => none
  | fuel + 1, id =>
    match m.used[id]? with
    | none => none
    | some false => some id
    | some true =>
      match m.deleted[id]? with
      | none => none
      | some true =>
        find_idLoop m key fuel (if id + 1 = m.data.length then 0 else id + 1)
      | some false =>
        match get_key m id with
        | none => none
        | some k =>
          if k = key then some id
          else find_idLoop m key fuel (if id + 1 = m.data.length then 0 else id + 1)

/-- Method `find_id` (lines 196-208); the not-found result is `data.size()`. -/
def find_id [DecidableEq K] (m : HashMap K V) (key : K) : Option Nat :=
  if m.data.length = 0 then none
  else
    match find_idLoop m key m.data.length (m.hasher key % m.data.length) with
    | none => none
    | some id =>
      match m.used[id]? with
      | none => none
      | some false => some m.data.length
      | some true =>
        match m.deleted[id]? with
        | none => none
        | some true => some m.data.length
        | some false => some id

/-- The `while` loop of `find_next` (lines 211-216); the first argument is fuel. -/
def find_nextLoop (used : List Bool) : Nat → Nat → Option Nat
  | 0, _ => none
  | fuel + 1, i =>
    match used[i]? with
    | none => none
    | some false => some i
    | some true => find_nextLoop used fuel (if i + 1 = used.length then 0 else i + 1)

/-- Method `find_next` (lines 210-218). -/
def find_next (i : Nat) (used : List Bool) : Option Nat :=
  find_nextLoop used used.length i

/-- Method `add` (lines 220-229), on the vectors and the list it is given. -/
def add (hasher : K → Nat) (heap : Nat) (p : K × V) (data : List Iter) (used : List Bool)
    (elements : List (Node K V)) :
    Option (List Iter × List Bool × List (Node K V) × Nat) :=
  if data.length = 0 then none
  else
    match find_next (hasher p.1 % data.length) used with
    | none => none
    | some id =>
      if id < data.length ∧ id < used.length then
        some (data.set id (Iter.node heap), used.set id true,
              { addr := heap, key := p.1, val := p.2 } :: elements, heap + 1)
      else none

/-- The `for` loop of `rebuild` (lines 236-238) over the remaining old nodes. -/
def rebuildLoop (hasher : K → Nat) :
    List (Node K V) → Nat → List Iter → List Bool → List (Node K V) →
    Option (List Iter × List Bool × List (Node K V) × Nat)
  | [], heap, new_data, new_used, new_elements =>
    some (new_data, new_used, new_elements, heap)
  | n :: rest, heap, new_data, new_used, new_elements =>
    match add hasher heap (n.key, n.val) new_data new_used new_elements with
    | none => none
    | some (d, u, e, h) => rebuildLoop hasher rest h d u e

/-- Method `rebuild` (lines 231-244). -/
def rebuild (m : HashMap K V) : Option (HashMap K V) :=
  let len := m.data.length * 2
  match rebuildLoop m.hasher m.elements m.heap
      (List.replicate len Iter.null) (List.replicate len false) [] with
  | none => none
  | some (d, u, e, h) =>
    some { m with data := d, used := u, elements := e,
                  deleted := List.replicate len false, heap := h }

/-- Method `find` (lines 141-147): the iterator stored in the slot, or `end()`. -/
def find [DecidableEq K] (m : HashMap K V) (key : K) : Option Iter :=
  match find_id m key with
  | none => none
  | some id => if id ≠ m.data.length then m.data[id]? else some Iter.past

/-- Method `insert` (lines 40-47). -/
def insert [DecidableEq K] (m : HashMap K V) (p : K × V) : Option (HashMap K V) :=
  match find m p.1 with
  | none => none
  | some it =>
    if it ≠ Iter.past then some m
    else
      match add m.hasher m.heap p m.data m.used m.elements with
      | none => none
      | some (d, u, e, h) =>
        let m1 := { m with data := d, used := u, elements := e, heap := h, cnt := m.cnt + 1 }
        if m1.cnt * LOAD_FACTOR > m1.data.length then rebuild m1 else some m1

/-- Removal of the node an iterator points to (`elements.erase(it)`). -/
def list_erase (elements : List (Node K V)) (it : Iter) : Option (List (Node K V)) :=
  match deref elements it with
  | none => none
  | some n => some (elements.eraseP (fun x => decide (x.addr = n.addr)))

/-- Method `erase` (lines 157-163). -/
def erase [DecidableEq K] (m : HashMap K V) (key : K) : Option (HashMap K V) :=
  match find_id m key with
  | none => none
  | some id =>
    if id ≠ m.data.length then
      match get_key m id with
      | none => none
      | some k =>
        if k = key then
          match m.data[id]? with
          | none => none
          | some it =>
            if id < m.deleted.length then
              match list_erase m.elements it with
              | none => none
              | some e => some { m with deleted := m.deleted.set id true, elements := e }
            else none
        else some m
    else some m

/-- The `for` loop of `clear` (lines 17-20) over the remaining nodes. -/
def clearLoop [DecidableEq K] (m : HashMap K V) : List (Node K V) → Option (HashMap K V)
  | [] => some m
  | n :: rest =>
    match find_id m n.key with
    | none => none
    | some id =>
      if id < m.deleted.length then
        clearLoop { m with deleted := m.deleted.set id true } rest
      else none

/-- Method `clear` (lines 16-22). -/
def clear [DecidableEq K] (m : HashMap K V) : Option (HashMap K V) :=
  match clearLoop m m.elements with
  | none => none
  | some m1 => some { m1 with elements := [] }

/-- Repeated `insert`, as in the loops of lines 34-36, 53-55 and 59-61. -/
def insertAll [DecidableEq K] (m : HashMap K V) : List (K × V) → Option (HashMap K V)
  | [] => some m
  | p :: rest =>
    match insert m p with
    | none => none
    | some m1 => insertAll m1 rest

/-- Copy assignment `operator=` (lines 24-38); `other` is passed by value. -/
def operator_assign [DecidableEq K] (self other : HashMap K V) : Option (HashMap K V) :=
  insertAll
    { cnt := 0
      data := List.replicate SZ Iter.null
      used := List.replicate SZ false
      deleted := List.replicate SZ false
      elements := []
      hasher := other.hasher
      heap := self.heap }
    (iterate other)

/-- Method `operator[]` (lines 165-172): the new state and the node whose
`second` the returned reference designates. -/
def operator_index [DecidableEq K] [Inhabited V] (m : HashMap K V) (key : K) :
    Option (HashMap K V × Node K V) :=
  match find_id m key with
  | none => none
  | some id =>
    if id = m.data.length then
      match insert m (key, default) with
      | none => none
      | some m1 =>
        match find_id m1 key with
        | none => none
        | some id1 =>
          match m1.data[id1]? with
          | none => none
          | some it =>
            match deref m1.elements it with
            | none => none
            | some n => some (m1, n)
    else
      match m.data[id]? with
      | none => none
      | some it =>
        match deref m.elements it with
        | none => none
        | some n => some (m, n)

/-- Result of `at`: the value, or the `std::out_of_range` exception. -/
inductive AtResult (V : Type) where
  | value (v : V) : AtResult V
  | out_of_range : AtResult V
deriving DecidableEq, Repr

/-- Method `at` (lines 174-180); it is `const`, so there is no new state. -/
def at_ [DecidableEq K] (m : HashMap K V) (key : K) : Option (AtResult V) :=
  match find m key with
  | none => none
  | some it =>
    if it = Iter.past then some AtResult.out_of_range
    else
      match deref m.elements it with
      | none => none
      | some n => some (AtResult.value n.val)

/-- The slot reached after `t` advances of a probe that starts in slot `h`. -/
def slotAt (C h t : Nat) : Nat := if h + t < C then h + t else h + t - C

/-- Invariant tying the probe table to the list: `E` is the list the iterators
point into and `L` lists the nodes whose slots are still occupied. -/
structure TableInv (hasher : K → Nat) (heap : Nat) (data : List Iter) (used deleted : List Bool)
    (E L : List (Node K V)) : Prop where
  len_used : used.length = data.length
  len_deleted : deleted.length = data.length
  keys_nodup : (E.map Node.key).Nodup
  addr_nodup : (E.map Node.addr).Nodup
  addr_lt : ∀ n, n ∈ E → n.addr < heap
  sub : List.Sublist L E
  tomb : ∀ i : Nat, deleted[i]? = some true → used[i]? = some true
  home : ∀ n, n ∈ L → ∃ t, t < data.length ∧
      (∀ s, s < t → used[slotAt data.length (hasher n.key % data.length) s]? = some true) ∧
      used[slotAt data.length (hasher n.key % data.length) t]? = some true ∧
      deleted[slotAt data.length (hasher n.key % data.length) t]? = some false ∧
      data[slotAt data.length (hasher n.key % data.length) t]? = some (Iter.node n.addr)
  live : ∀ i : Nat, used[i]? = some true → deleted[i]? = some false →
      ∃ n, n ∈ L ∧ data[i]? = some (Iter.node n.addr)
  inj : ∀ i j : Nat, used[i]? = some true → deleted[i]? = some false →
      used[j]? = some true → deleted[j]? = some false → data[i]? = data[j]? → i = j

/-- Slot `i` makes the loop of `find_id` advance. -/
def Skip [DecidableEq K] (m : HashMap K V) (key : K) (i : Nat) : Prop :=
  m.used[i]? = some true ∧
    (m.deleted[i]? = some true ∨
      (m.deleted[i]? = some false ∧ ∃ k, get_key m i = some k ∧ k ≠ key))

/-- Slot `i` makes the loop of `find_id` stop. -/
def Stop [DecidableEq K] (m : HashMap K V) (key : K) (i : Nat) : Prop :=
  m.used[i]? = some false ∨
    (m.used[i]? = some true ∧ m.deleted[i]? = some false ∧ get_key m i = some key)

/-- Invariant of every reachable `HashMap` state. -/
structure Inv (m : HashMap K V) : Prop where
  table : TableInv m.hasher m.heap m.data m.used m.deleted m.elements m.elements
  cap : 3 ≤ m.data.length
  load : m.cnt * 3 ≤ m.data.length
  used_le : m.used.count true ≤ m.cnt
  size_le : m.elements.length ≤ m.cnt

/-- The entry that the iterator returned by `find` designates (`*find(key)`),
`some none` standing for `end()`. -/
def find_entry [DecidableEq K] (m : HashMap K V) (key : K) : Option (Option (K × V)) :=
  match find m key with
  | none => none
  | some it =>
    if it = Iter.past then some none
    else
      match deref m.elements it with
      | none => none
      | some n => some (some n.entry)

/-- Assignment of `v` through the reference returned by `operator[]` (line 171)
or through `iterator::operator->` (lines 88-90) to the node at address `addr`. -/
def store (m : HashMap K V) (addr : Nat) (v : V) : Option (HashMap K V) :=
  match deref m.elements (Iter.node addr) with
  | none => none
  | some _ =>
    some { m with elements :=
      m.elements.map (fun x => if x.addr = addr then { x with val := v } else x) }

/-- States obtained from a freshly constructed map by the public mutating
methods, plus assignments through the references they hand out. -/
inductive Reachable [DecidableEq K] [Inhabited V] : HashMap K V → Prop
  | new (hasher : K → Nat) : Reachable (HashMap.new hasher)
  | insert {m m1 : HashMap K V} (p : K × V) :
      Reachable m → insert m p = some m1 → Reachable m1
  | erase {m m1 : HashMap K V} (key : K) :
      Reachable m → erase m key = some m1 → Reachable m1
  | clear {m m1 : HashMap K V} : Reachable m → clear m = some m1 → Reachable m1
  | operator_index {m m1 : HashMap K V} {n : Node K V} (key : K) :
      Reachable m → operator_index m key = some (m1, n) → Reachable m1
  | operator_assign {m o m1 : HashMap K V} :
      Reachable m → Reachable o → operator_assign m o = some m1 → Reachable m1
  | store {m m1 : HashMap K V} (addr : Nat) (v : V) :
      Reachable m → store m addr v = some m1 → Reachable m1

/-- Example state: `insert({10, 1})` on `HashMap(identity)`. -/
def exampleOne : HashMap Nat Nat :=
  { cnt := 1
    data := [Iter.null, Iter.node 0, Iter.null]
    used := [false, true, false]
    deleted := [false, false, false]
    elements := [{ addr := 0, key := 10, val := 1 }]
    hasher := fun k => k
    heap := 1 }

/-- Example state: `insert({10, 1})`, `insert({20, 2})` on `HashMap(identity)`;
the second insertion has rebuilt the table. -/
def exampleTwo : HashMap Nat Nat :=
  { cnt := 2
    data := [Iter.null, Iter.null, Iter.node 2, Iter.null, Iter.node 3, Iter.null]
    used := [false, false, true, false, true, false]
    deleted := [false, false, false, false, false, false]
    elements := [{ addr := 3, key := 10, val := 1 }, { addr := 2, key := 20, val := 2 }]
    hasher := fun k => k
    heap := 4 }

/-- Lines 42-43 of `insert`: the state after `add` and `++cnt`, before the
load-factor test of line 44. -/
def insert_added (m : HashMap K V) (p : K × V) : Option (HashMap K V) :=
  match add m.hasher m.heap p m.data m.used m.elements with
  | none => none
  | some (d, u, e, h) =>
    some { m with data := d, used := u, elements := e, heap := h, cnt := m.cnt + 1 }

/-- Example state: `insert({10, 1})`, `insert({20, 2})`, `insert({30, 3})` on
`HashMap(identity)`; the second and the third insertion have rebuilt the table. -/
def exampleThree : HashMap Nat Nat :=
  { cnt := 3
    data := [Iter.null, Iter.null, Iter.null, Iter.null, Iter.null, Iter.null, Iter.node 5,
             Iter.null, Iter.node 7, Iter.null, Iter.node 6, Iter.null]
    used := [false, false, false, false, false, false, true, false, true, false, true, false]
    deleted := [false, false, false, false, false, false, false, false, false, false, false,
                false]
    elements := [{ addr := 7, key := 20, val := 2 }, { addr := 6, key := 10, val := 1 },
                 { addr := 5, key := 30, val := 3 }]
    hasher := fun k => k
    heap := 8 }

/-- Example state: `insert({10, 1})`, `insert({20, 2})`, `erase(20)` on
`HashMap(identity)`. -/
def exampleErased : HashMap Nat Nat :=
  { cnt := 2
    data := [Iter.null, Iter.null, Iter.node 2, Iter.null, Iter.node 3, Iter.null]
    used := [false, false, true, false, true, false]
    deleted := [false, false, true, false, false, false]
    elements := [{ addr := 3, key := 10, val := 1 }]
    hasher := fun k => k
    heap := 4 }

/-- State of a probe-table slot, as coded by its `used` and `deleted` flags. -/
inductive SlotState where
  | empty : SlotState
  | occupied : SlotState
  | tombstone : SlotState
deriving DecidableEq, Repr

/-- The slot state coded by a `used` flag and a `deleted` flag. -/
def slot_of (u d : Bool) : SlotState :=
  if u then (if d then SlotState.tombstone else SlotState.occupied) else SlotState.empty

/-- State of slot `i` of the probe table (`none` when `i` is out of range). -/
def slot_state (m : HashMap K V) (i : Nat) : Option SlotState :=
  match m.used[i]?, m.deleted[i]? with
  | some u, some d => some (slot_of u d)
  | _, _ => none

/-- The moves a slot may make within one table generation: it stays as it is,
or goes from empty to occupied, or from occupied to tombstone. -/
def slot_move : SlotState → SlotState → Bool
  | SlotState.empty, SlotState.empty => true
  | SlotState.empty, SlotState.occupied => true
  | SlotState.occupied, SlotState.occupied => true
  | SlotState.occupied, SlotState.tombstone => true
  | SlotState.tombstone, SlotState.tombstone => true
  | _, _ => false

/-- The probe-table invariant of the data model: every node of the list is
found by the linear probe from its home slot before any unused slot, in an
occupied slot that points at it, and every occupied slot points at a node of
the list. -/
def ProbeInv (m : HashMap K V) : Prop :=
  (∀ n, n ∈ m.elements → ∃ t, t < m.data.length ∧
    (∀ s, s < t →
      m.used[slotAt m.data.length (m.hasher n.key % m.data.length) s]? = some true) ∧
    slot_state m (slotAt m.data.length (m.hasher n.key % m.data.length) t) =
      some SlotState.occupied ∧
    m.data[slotAt m.data.length (m.hasher n.key % m.data.length) t]? =
      some (Iter.node n.addr) ∧
    get_key m (slotAt m.data.length (m.hasher n.key % m.data.length) t) = some n.key) ∧
  (∀ i, slot_state m i = some SlotState.occupied →
    ∃ n, n ∈ m.elements ∧ m.data[i]? = some (Iter.node n.addr) ∧
      deref m.elements (Iter.node n.addr) = some n)

/-- Constructors from an iterator range (lines 49-56) and from an initializer
list (lines 57-62): `*this = HashMap(hasher)` followed by one `insert` per
pair.  Before the assignment the vectors and the list of `*this` are empty and
`cnt` is indeterminate; `operator=` overwrites all of them. -/
def construct [DecidableEq K] (hasher : K → Nat) (l : List (K × V)) : Option (HashMap K V) :=
  match operator_assign
      { cnt := 0, data := [], used := [], deleted := [], elements := [], hasher := hasher,
        heap := 0 }
      (HashMap.new hasher) with
  | none => none
  | some m => insertAll m l

/-! Theorems. -/

theorem slotAt_lt {C h t : Nat} (hh : h < C) (ht : t < C) : slotAt C h t < C := by
  unfold slotAt; split <;> omega

theorem slotAt_zero {C h : Nat} (hh : h < C) : slotAt C h 0 = h := by
  unfold slotAt; split <;> omega

theorem slotAt_next {C h s : Nat} (hs : s < C) :
    slotAt C (if h + 1 = C then 0 else h + 1) s = slotAt C h (s + 1) := by
  unfold slotAt; split <;> split <;> split <;> omega

theorem next_lt {C h : Nat} (hh : h < C) : (if h + 1 = C then 0 else h + 1) < C := by
  split <;> omega

theorem slotAt_inj {C h s t : Nat} (hs : s < C) (ht : t < C)
    (e : slotAt C h s = slotAt C h t) : s = t := by
  unfold slotAt at e; split at e <;> split at e <;> omega

theorem slotAt_surj {C h j : Nat} (hh : h < C) (hj : j < C) : ∃ t, t < C ∧ slotAt C h t = j := by
  by_cases c : h ≤ j
  · exact ⟨j - h, by omega, by unfold slotAt; split <;> omega⟩
  · exact ⟨j + C - h, by omega, by unfold slotAt; split <;> omega⟩

theorem find_nextLoop_eq (used : List Bool) :
    ∀ (t fuel h : Nat), h < used.length → t < used.length → t < fuel →
      (∀ s, s < t → used[slotAt used.length h s]? = some true) →
      used[slotAt used.length h t]? = some false →
      find_nextLoop used fuel h = some (slotAt used.length h t) := by
  intro t
  induction t with
  | zero =>
    intro fuel h hh _ hf _ hstop
    obtain ⟨f, rfl⟩ : ∃ f, fuel = f + 1 := ⟨fuel - 1, by omega⟩
    rw [slotAt_zero hh] at hstop ⊢
    simp [find_nextLoop, hstop]
  | succ t ih =>
    intro fuel h hh ht hf hskip hstop
    obtain ⟨f, rfl⟩ : ∃ f, fuel = f + 1 := ⟨fuel - 1, by omega⟩
    have h0 := hskip 0 (by omega)
    rw [slotAt_zero hh] at h0
    have hn := ih f _ (next_lt hh) (by omega) (by omega)
      (fun s hs => by rw [slotAt_next (by omega)]; exact hskip (s + 1) (by omega))
      (by rw [slotAt_next (by omega)]; exact hstop)
    rw [slotAt_next (by omega)] at hn
    simp only [find_nextLoop, h0]
    exact hn

theorem exists_first_unused (used : List Bool) {h : Nat} (hh : h < used.length)
    (hex : ∃ j : Nat, used[j]? = some false) :
    ∃ t, t < used.length ∧ (∀ s, s < t → used[slotAt used.length h s]? = some true) ∧
      used[slotAt used.length h t]? = some false := by
  obtain ⟨j, hj⟩ := hex
  have hjlt : j < used.length := by
    rcases Nat.lt_or_ge j used.length with c | c
    · exact c
    · rw [List.getElem?_eq_none c] at hj; cases hj
  obtain ⟨t1, ht1, e1⟩ := slotAt_surj hh hjlt
  have hP : ∃ t, used[slotAt used.length h t]? = some false := ⟨t1, by rw [e1]; exact hj⟩
  refine ⟨Nat.find hP, ?_, ?_, Nat.find_spec hP⟩
  · exact lt_of_le_of_lt (Nat.find_min' hP (by rw [e1]; exact hj)) ht1
  · intro s hs
    have hlt : s < used.length :=
      lt_trans hs (lt_of_le_of_lt (Nat.find_min' hP (by rw [e1]; exact hj)) ht1)
    have hne := Nat.find_min hP hs
    have hb := slotAt_lt hh hlt
    rw [List.getElem?_eq_getElem hb] at hne ⊢
    cases hv : used[slotAt used.length h s] with
    | true => rfl
    | false => rw [hv] at hne; exact absurd rfl hne

theorem deref_of_mem {E : List (Node K V)} (hnd : (E.map Node.addr).Nodup) {n : Node K V}
    (hn : n ∈ E) : deref E (Iter.node n.addr) = some n := by
  induction E with
  | nil => cases hn
  | cons x xs ih =>
    rw [List.map_cons, List.nodup_cons] at hnd
    simp only [deref, List.find?_cons]
    by_cases hx : x.addr = n.addr
    · rcases List.mem_cons.mp hn with e | e
      · simp [e]
      · exact absurd (hx ▸ List.mem_map_of_mem Node.addr e) hnd.1
    · rcases List.mem_cons.mp hn with e | e
      · exact absurd (e ▸ rfl) hx
      · simp only [hx, decide_False]
        exact ih hnd.2 e

theorem deref_some {E : List (Node K V)} {it : Iter} {n : Node K V}
    (h : deref E it = some n) : n ∈ E ∧ it = Iter.node n.addr := by
  cases it with
  | null => cases h
  | past => cases h
  | node a =>
    simp only [deref] at h
    have h1 := List.mem_of_find?_eq_some h
    have h2 := List.find?_some h
    simp only [decide_eq_true_eq] at h2
    exact ⟨h1, by rw [h2]⟩

theorem key_inj {E : List (Node K V)} (hnd : (E.map Node.key).Nodup) {a b : Node K V}
    (ha : a ∈ E) (hb : b ∈ E) (e : a.key = b.key) : a = b := by
  induction E with
  | nil => cases ha
  | cons x xs ih =>
    rw [List.map_cons, List.nodup_cons] at hnd
    rcases List.mem_cons.mp ha with e1 | e1 <;> rcases List.mem_cons.mp hb with e2 | e2
    · rw [e1, e2]
    · exact absurd (by rw [← e1, e]; exact List.mem_map_of_mem Node.key e2) hnd.1
    · exact absurd (by rw [← e2, ← e]; exact List.mem_map_of_mem Node.key e1) hnd.1
    · exact ih hnd.2 e1 e2

theorem find_idLoop_eq [DecidableEq K] (m : HashMap K V) (key : K) :
    ∀ (t fuel h : Nat), h < m.data.length → t < m.data.length → t < fuel →
      (∀ s, s < t → Skip m key (slotAt m.data.length h s)) →
      Stop m key (slotAt m.data.length h t) →
      find_idLoop m key fuel h = some (slotAt m.data.length h t) := by
  intro t
  induction t with
  | zero =>
    intro fuel h hh _ hf _ hstop
    obtain ⟨f, rfl⟩ : ∃ f, fuel = f + 1 := ⟨fuel - 1, by omega⟩
    rw [slotAt_zero hh] at hstop ⊢
    rcases hstop with h1 | ⟨h1, h2, h3⟩
    · simp [find_idLoop, h1]
    · simp [find_idLoop, h1, h2, h3]
  | succ t ih =>
    intro fuel h hh ht hf hskip hstop
    obtain ⟨f, rfl⟩ : ∃ f, fuel = f + 1 := ⟨fuel - 1, by omega⟩
    have h0 := hskip 0 (by omega)
    rw [slotAt_zero hh] at h0
    have hn := ih f _ (next_lt hh) (by omega) (by omega)
      (fun s hs => by rw [slotAt_next (by omega)]; exact hskip (s + 1) (by omega))
      (by rw [slotAt_next (by omega)]; exact hstop)
    rw [slotAt_next (by omega)] at hn
    rcases h0 with ⟨h1, h2 | ⟨h2, k, h3, h4⟩⟩
    · simp only [find_idLoop, h1, h2]
      exact hn
    · simp only [find_idLoop, h1, h2, h3, if_neg h4]
      exact hn

theorem get_key_live (m : HashMap K V) {L : List (Node K V)}
    (inv : TableInv m.hasher m.heap m.data m.used m.deleted m.elements L)
    {i : Nat} {n : Node K V} (hn : n ∈ L) (hd : m.data[i]? = some (Iter.node n.addr)) :
    get_key m i = some n.key := by
  simp only [get_key, hd, deref_of_mem inv.addr_nodup (inv.sub.subset hn)]

theorem find_id_present [DecidableEq K] (m : HashMap K V) {L : List (Node K V)}
    (inv : TableInv m.hasher m.heap m.data m.used m.deleted m.elements L)
    {n : Node K V} (hn : n ∈ L) :
    ∃ i, find_id m n.key = some i ∧ i < m.data.length ∧ m.used[i]? = some true ∧
      m.deleted[i]? = some false ∧ m.data[i]? = some (Iter.node n.addr) := by
  obtain ⟨t, ht, hpath, hu, hd, hdat⟩ := inv.home n hn
  have hC : 0 < m.data.length := by omega
  have hh : m.hasher n.key % m.data.length < m.data.length := Nat.mod_lt _ hC
  have hloop := find_idLoop_eq m n.key t m.data.length _ hh ht ht
    (by
      intro s hs
      refine ⟨hpath s hs, ?_⟩
      have hb : slotAt m.data.length (m.hasher n.key % m.data.length) s < m.deleted.length := by
        rw [inv.len_deleted]; exact slotAt_lt hh (by omega)
      rw [List.getElem?_eq_getElem hb]
      cases hv : m.deleted[slotAt m.data.length (m.hasher n.key % m.data.length) s] with
      | true => exact Or.inl rfl
      | false =>
        refine Or.inr ⟨rfl, ?_⟩
        have hdel : m.deleted[slotAt m.data.length (m.hasher n.key % m.data.length) s]? =
            some false := by rw [List.getElem?_eq_getElem hb, hv]
        obtain ⟨n1, hn1, hd1⟩ := inv.live _ (hpath s hs) hdel
        refine ⟨n1.key, get_key_live m inv hn1 hd1, ?_⟩
        intro e
        have e2 : n1 = n := key_inj inv.keys_nodup (inv.sub.subset hn1) (inv.sub.subset hn) e
        rw [e2] at hd1
        have e3 := inv.inj _ _ (hpath s hs) hdel hu hd (by rw [hd1, hdat])
        have := slotAt_inj (by omega) ht e3
        omega)
    (Or.inr ⟨hu, hd, get_key_live m inv hn hdat⟩)
  refine ⟨_, ?_, slotAt_lt hh ht, hu, hd, hdat⟩
  simp only [find_id, hloop, hu, hd]
  rw [if_neg (by omega)]

theorem find_id_absent [DecidableEq K] (m : HashMap K V) {L : List (Node K V)}
    (inv : TableInv m.hasher m.heap m.data m.used m.deleted m.elements L)
    (hC : 0 < m.data.length) (hex : ∃ j : Nat, m.used[j]? = some false)
    {key : K} (hk : ∀ n, n ∈ L → n.key ≠ key) :
    find_id m key = some m.data.length := by
  have hh : m.hasher key % m.data.length < m.data.length := Nat.mod_lt _ hC
  have hh2 : m.hasher key % m.data.length < m.used.length := by rw [inv.len_used]; exact hh
  obtain ⟨t, ht, hpath, hstop⟩ := exists_first_unused m.used hh2 hex
  rw [inv.len_used] at ht hpath hstop
  have hloop := find_idLoop_eq m key t m.data.length _ hh ht ht
    (by
      intro s hs
      refine ⟨hpath s hs, ?_⟩
      have hb : slotAt m.data.length (m.hasher key % m.data.length) s < m.deleted.length := by
        rw [inv.len_deleted]; exact slotAt_lt hh (by omega)
      rw [List.getElem?_eq_getElem hb]
      cases hv : m.deleted[slotAt m.data.length (m.hasher key % m.data.length) s] with
      | true => exact Or.inl rfl
      | false =>
        refine Or.inr ⟨rfl, ?_⟩
        have hdel : m.deleted[slotAt m.data.length (m.hasher key % m.data.length) s]? =
            some false := by rw [List.getElem?_eq_getElem hb, hv]
        obtain ⟨n1, hn1, hd1⟩ := inv.live _ (hpath s hs) hdel
        exact ⟨n1.key, get_key_live m inv hn1 hd1, hk n1 hn1⟩)
    (Or.inl hstop)
  simp only [find_id, hloop, hstop]
  rw [if_neg (by omega)]

theorem exists_unused {used : List Bool} (h : used.count true < used.length) :
    ∃ j : Nat, used[j]? = some false := by
  have hne : ¬ (∀ b, b ∈ used → true = b) := fun hall =>
    absurd (List.count_eq_length.mpr hall) (Nat.ne_of_lt h)
  push_neg at hne
  obtain ⟨b, hb, hbt⟩ := hne
  obtain ⟨j, hj⟩ := List.mem_iff_getElem?.mp hb
  refine ⟨j, ?_⟩
  cases b with
  | true => exact absurd rfl hbt
  | false => exact hj

theorem count_set_true {used : List Bool} {i : Nat} (hi : used[i]? = some false) :
    (used.set i true).count true = used.count true + 1 := by
  obtain ⟨hlt, hv⟩ := List.getElem?_eq_some.mp hi
  rw [List.count_set true true used i hlt, hv]
  simp

theorem getElem?_set_true {used : List Bool} {i j : Nat} (h : used[j]? = some true) :
    (used.set i true)[j]? = some true := by
  rw [List.getElem?_set]
  split
  · next e =>
    subst e
    obtain ⟨hlt, _⟩ := List.getElem?_eq_some.mp h
    simp [hlt]
  · exact h

theorem add_spec (hasher : K → Nat) (heap : Nat) (data : List Iter) (used deleted : List Bool)
    (E : List (Node K V)) (inv : TableInv hasher heap data used deleted E E)
    (hC : 0 < data.length) (hfree : used.count true < used.length)
    (p : K × V) (hp : ∀ n, n ∈ E → n.key ≠ p.1) :
    ∃ t, t < data.length ∧
      (∀ s, s < t → used[slotAt data.length (hasher p.1 % data.length) s]? = some true) ∧
      used[slotAt data.length (hasher p.1 % data.length) t]? = some false ∧
      add hasher heap p data used E =
        some (data.set (slotAt data.length (hasher p.1 % data.length) t) (Iter.node heap),
              used.set (slotAt data.length (hasher p.1 % data.length) t) true,
              { addr := heap, key := p.1, val := p.2 } :: E, heap + 1) ∧
      TableInv hasher (heap + 1)
        (data.set (slotAt data.length (hasher p.1 % data.length) t) (Iter.node heap))
        (used.set (slotAt data.length (hasher p.1 % data.length) t) true) deleted
        ({ addr := heap, key := p.1, val := p.2 } :: E)
        ({ addr := heap, key := p.1, val := p.2 } :: E) := by
  have hh : hasher p.1 % data.length < data.length := Nat.mod_lt _ hC
  have hh2 : hasher p.1 % data.length < used.length := by rw [inv.len_used]; exact hh
  obtain ⟨t, ht, hpath, hstop⟩ := exists_first_unused used hh2 (exists_unused hfree)
  have hfn := find_nextLoop_eq used t used.length _ hh2 ht ht hpath hstop
  rw [inv.len_used] at ht hpath hstop hfn
  generalize hi : slotAt data.length (hasher p.1 % data.length) t = i at hstop hfn
  have hilt : i < data.length := by rw [← hi]; exact slotAt_lt hh ht
  have hdel : deleted[i]? = some false := by
    have hb : i < deleted.length := by rw [inv.len_deleted]; exact hilt
    rw [List.getElem?_eq_getElem hb]
    cases hv : deleted[i] with
    | false => rfl
    | true =>
      have := inv.tomb i (by rw [List.getElem?_eq_getElem hb, hv])
      rw [hstop] at this; cases this
  refine ⟨t, ht, hpath, by rw [hi]; exact hstop, ?_, ?_⟩
  · have hne : data.length ≠ 0 := by omega
    have hcond : i < data.length ∧ i < used.length := ⟨hilt, by rw [inv.len_used]; exact hilt⟩
    simp only [add, find_next, if_neg hne, inv.len_used, hfn, hi]
    rw [if_pos (by rw [inv.len_used] at hcond; exact hcond)]
  · rw [hi]
    have old_ne : ∀ j : Nat, used[j]? = some true → i ≠ j := by
      intro j hj e; subst e; rw [hstop] at hj; cases hj
    constructor
    · rw [List.length_set, List.length_set]; exact inv.len_used
    · rw [List.length_set]; exact inv.len_deleted
    · rw [List.map_cons, List.nodup_cons]
      refine ⟨?_, inv.keys_nodup⟩
      intro hmem
      obtain ⟨n, hn, e⟩ := List.mem_map.mp hmem
      exact hp n hn e
    · rw [List.map_cons, List.nodup_cons]
      refine ⟨?_, inv.addr_nodup⟩
      intro hmem
      obtain ⟨n, hn, e⟩ := List.mem_map.mp hmem
      have := inv.addr_lt n hn
      simp only at e
      omega
    · intro n hn
      rcases List.mem_cons.mp hn with e | e
      · rw [e]; simp
      · have := inv.addr_lt n e; omega
    · exact List.Sublist.refl _
    · intro j hj
      exact getElem?_set_true (inv.tomb j hj)
    · intro n hn
      rw [List.length_set]
      rcases List.mem_cons.mp hn with e | e
      · subst e
        refine ⟨t, ht, fun s hs => getElem?_set_true (hpath s hs), ?_, ?_, ?_⟩
        · simp only [hi]
          exact List.getElem?_set_self (by rw [inv.len_used]; exact hilt)
        · simp only [hi]; exact hdel
        · simp only [hi]
          exact List.getElem?_set_self hilt
      · obtain ⟨t1, ht1, hp1, hu1, hd1, hdat1⟩ := inv.home n e
        refine ⟨t1, ht1, fun s hs => getElem?_set_true (hp1 s hs), getElem?_set_true hu1, hd1, ?_⟩
        rw [List.getElem?_set_ne (old_ne _ hu1)]
        exact hdat1
    · intro j hu hd
      by_cases e : i = j
      · subst e
        exact ⟨_, List.mem_cons_self _ _, List.getElem?_set_self hilt⟩
      · rw [List.getElem?_set_ne e] at hu
        obtain ⟨n, hn, hdat⟩ := inv.live j hu hd
        exact ⟨n, List.mem_cons_of_mem _ hn, by rw [List.getElem?_set_ne e]; exact hdat⟩
    · intro j1 j2 hu1 hd1 hu2 hd2 hdat
      by_cases e1 : i = j1 <;> by_cases e2 : i = j2
      · rw [← e1, ← e2]
      · exfalso
        subst e1
        rw [List.getElem?_set_ne e2] at hu2 hdat
        rw [List.getElem?_set_self hilt] at hdat
        obtain ⟨n, hn, hdn⟩ := inv.live j2 hu2 hd2
        rw [hdn] at hdat
        have := inv.addr_lt n hn
        injection hdat with hdat; injection hdat with hdat
        omega
      · exfalso
        subst e2
        rw [List.getElem?_set_ne e1] at hu1 hdat
        rw [List.getElem?_set_self hilt] at hdat
        obtain ⟨n, hn, hdn⟩ := inv.live j1 hu1 hd1
        rw [hdn] at hdat
        have := inv.addr_lt n hn
        injection hdat with hdat; injection hdat with hdat
        omega
      · rw [List.getElem?_set_ne e1] at hu1 hdat
        rw [List.getElem?_set_ne e2] at hu2 hdat
        exact inv.inj j1 j2 hu1 hd1 hu2 hd2 hdat

theorem tableInv_replicate (hasher : K → Nat) (heap C : Nat) :
    TableInv hasher heap (List.replicate C Iter.null) (List.replicate C false)
      (List.replicate C false) ([] : List (Node K V)) [] := by
  constructor
  · simp
  · simp
  · simp
  · simp
  · intro n hn; cases hn
  · exact List.Sublist.refl _
  · intro i hi
    rw [List.getElem?_replicate] at hi
    split at hi <;> cases hi
  · intro n hn; cases hn
  · intro i hi
    rw [List.getElem?_replicate] at hi
    split at hi <;> cases hi
  · intro i j hi
    rw [List.getElem?_replicate] at hi
    split at hi <;> cases hi

theorem rebuildLoop_spec (hasher : K → Nat) (C : Nat) (del : List Bool) :
    ∀ (rest : List (Node K V)) (heap : Nat) (d : List Iter) (u : List Bool) (e : List (Node K V)),
      TableInv hasher heap d u del e e → d.length = C →
      u.count true = e.length → e.length + rest.length < C →
      (rest.map Node.key).Nodup → (∀ n, n ∈ rest → ∀ x, x ∈ e → x.key ≠ n.key) →
      ∃ d1 u1 e1 heap1, rebuildLoop hasher rest heap d u e = some (d1, u1, e1, heap1) ∧
        TableInv hasher heap1 d1 u1 del e1 e1 ∧ d1.length = C ∧ u1.count true = e1.length ∧
        e1.map Node.entry = (rest.map Node.entry).reverse ++ e.map Node.entry := by
  intro rest
  induction rest with
  | nil =>
    intro heap d u e inv hd hc _ _ _
    exact ⟨d, u, e, heap, rfl, inv, hd, hc, by simp⟩
  | cons n rest ih =>
    intro heap d u e inv hd hc hlen hnd hdisj
    rw [List.map_cons, List.nodup_cons] at hnd
    have hulen : u.length = C := by rw [inv.len_used, hd]
    simp only [List.length_cons] at hlen
    obtain ⟨t, _, _, hstop, hadd, inv1⟩ := add_spec hasher heap d u del e inv (by omega)
      (by omega) (n.key, n.val) (fun x hx => hdisj n (List.mem_cons_self _ _) x hx)
    obtain ⟨d1, u1, e1, heap1, hloop, inv2, hd2, hc2, hent⟩ :=
      ih (heap + 1) _ _ _ inv1 (by rw [List.length_set]; exact hd)
        (by rw [count_set_true hstop, hc]; simp)
        (by simp only [List.length_cons]; omega) hnd.2
        (by
          intro y hy x hx
          rcases List.mem_cons.mp hx with e0 | e0
          · subst e0
            intro e1
            exact hnd.1 (by simp only at e1; rw [e1]; exact List.mem_map_of_mem Node.key hy)
          · exact hdisj y (List.mem_cons_of_mem _ hy) x e0)
    refine ⟨d1, u1, e1, heap1, ?_, inv2, hd2, hc2, ?_⟩
    · simp only [rebuildLoop, hadd]
      exact hloop
    · rw [hent]
      simp [Node.entry]

theorem Inv.free {m : HashMap K V} (inv : Inv m) : m.used.count true < m.used.length := by
  have h1 := inv.used_le
  have h2 := inv.load
  have h3 := inv.cap
  rw [inv.table.len_used]
  omega

theorem find_present [DecidableEq K] {m : HashMap K V} (inv : Inv m) {n : Node K V}
    (hn : n ∈ m.elements) : find m n.key = some (Iter.node n.addr) := by
  obtain ⟨i, hf, hlt, _, _, hd⟩ := find_id_present m inv.table hn
  simp only [find, hf]
  rw [if_pos (by omega)]
  exact hd

theorem find_absent [DecidableEq K] {m : HashMap K V} (inv : Inv m) {key : K}
    (hk : ∀ n, n ∈ m.elements → n.key ≠ key) : find m key = some Iter.past := by
  have hC : 0 < m.data.length := lt_of_lt_of_le (by decide) inv.cap
  have hf := find_id_absent m inv.table hC (exists_unused inv.free) hk
  simp only [find, hf]
  simp

theorem find_total [DecidableEq K] {m : HashMap K V} (inv : Inv m) (key : K) :
    (find m key = some Iter.past ∧ ∀ n, n ∈ m.elements → n.key ≠ key) ∨
    (∃ n, n ∈ m.elements ∧ n.key = key ∧ find m key = some (Iter.node n.addr)) := by
  by_cases h : ∃ n, n ∈ m.elements ∧ n.key = key
  · obtain ⟨n, hn, e⟩ := h
    exact Or.inr ⟨n, hn, e, by rw [← e]; exact find_present inv hn⟩
  · push_neg at h
    exact Or.inl ⟨find_absent inv h, h⟩

theorem absent_of_find_past [DecidableEq K] {m : HashMap K V} (inv : Inv m) {key : K}
    (h : find m key = some Iter.past) : ∀ n, n ∈ m.elements → n.key ≠ key := by
  rcases find_total inv key with ⟨_, h2⟩ | ⟨n, _, _, h2⟩
  · exact h2
  · rw [h2] at h; cases h

theorem insert_present [DecidableEq K] {m : HashMap K V} (inv : Inv m) {n : Node K V}
    (hn : n ∈ m.elements) (w : V) : insert m (n.key, w) = some m := by
  simp [insert, find_present inv hn]

theorem insert_absent [DecidableEq K] {m : HashMap K V} (inv : Inv m) (p : K × V)
    (hp : ∀ n, n ∈ m.elements → n.key ≠ p.1) :
    ∃ m1, insert m p = some m1 ∧ Inv m1 ∧ m1.cnt = m.cnt + 1 ∧ m1.hasher = m.hasher ∧
      ((m.cnt + 1) * LOAD_FACTOR > m.data.length →
        iterate m1 = (iterate m).reverse ++ [p] ∧ m1.data.length = m.data.length * 2) ∧
      (¬ (m.cnt + 1) * LOAD_FACTOR > m.data.length →
        m1.elements = { addr := m.heap, key := p.1, val := p.2 } :: m.elements ∧
        m1.data.length = m.data.length ∧ m1.deleted = m.deleted) := by
  have hC : 0 < m.data.length := lt_of_lt_of_le (by decide) inv.cap
  obtain ⟨t, _, _, hstop, hadd, inv1⟩ := add_spec m.hasher m.heap m.data m.used m.deleted
    m.elements inv.table hC inv.free p hp
  have hcap := inv.cap
  have hload := inv.load
  have hsz := inv.size_le
  have hused := inv.used_le
  by_cases hr : (m.cnt + 1) * LOAD_FACTOR > m.data.length
  · have hlen2 : ((m.data.set (slotAt m.data.length (m.hasher p.1 % m.data.length) t)
        (Iter.node m.heap)).length * 2) = m.data.length * 2 := by rw [List.length_set]
    obtain ⟨d1, u1, e1, heap1, hloop, inv2, hd2, hc2, hent⟩ :=
      rebuildLoop_spec m.hasher (m.data.length * 2) (List.replicate (m.data.length * 2) false)
        ({ addr := m.heap, key := p.1, val := p.2 } :: m.elements) (m.heap + 1)
        (List.replicate (m.data.length * 2) Iter.null) (List.replicate (m.data.length * 2) false)
        [] (tableInv_replicate _ _ _) (by simp) (by simp [List.count_replicate])
        (by simp only [List.length_cons, List.length_nil]; omega) inv1.keys_nodup
        (by intro _ _ x hx; cases hx)
    have hlen : e1.length = m.elements.length + 1 := by
      have := congrArg List.length hent
      simpa using this
    refine ⟨{ cnt := m.cnt + 1, data := d1, used := u1,
              deleted := List.replicate (m.data.length * 2) false, elements := e1,
              hasher := m.hasher, heap := heap1 }, ?_, ?_, ?_, ?_, ?_, ?_⟩
    · simp only [insert, find_absent inv hp, hadd]
      simp only [ne_eq, not_true_eq_false, if_false, List.length_set]
      rw [if_pos hr]
      simp only [rebuild, List.length_set, hloop]
    · constructor
      · exact inv2
      · show 3 ≤ d1.length
        omega
      · show (m.cnt + 1) * 3 ≤ d1.length
        omega
      · show u1.count true ≤ m.cnt + 1
        omega
      · show e1.length ≤ m.cnt + 1
        omega
    · rfl
    · rfl
    · intro _
      refine ⟨?_, hd2⟩
      show e1.map Node.entry = _
      rw [hent]
      simp [iterate, Node.entry]
    · intro h; exact absurd hr h
  · refine ⟨{ cnt := m.cnt + 1,
              data := m.data.set (slotAt m.data.length (m.hasher p.1 % m.data.length) t)
                (Iter.node m.heap),
              used := m.used.set (slotAt m.data.length (m.hasher p.1 % m.data.length) t) true,
              deleted := m.deleted,
              elements := { addr := m.heap, key := p.1, val := p.2 } :: m.elements,
              hasher := m.hasher, heap := m.heap + 1 }, ?_, ?_, ?_, ?_, ?_, ?_⟩
    · simp only [insert, find_absent inv hp, hadd]
      simp only [ne_eq, not_true_eq_false, if_false, List.length_set]
      rw [if_neg hr]
    · simp only [LOAD_FACTOR] at hr
      constructor
      · exact inv1
      · show 3 ≤ (m.data.set _ _).length
        rw [List.length_set]; exact hcap
      · show (m.cnt + 1) * 3 ≤ (m.data.set _ _).length
        rw [List.length_set]; omega
      · show (m.used.set _ true).count true ≤ m.cnt + 1
        rw [count_set_true hstop]; omega
      · show (_ :: m.elements).length ≤ m.cnt + 1
        simp only [List.length_cons]; omega
    · rfl
    · rfl
    · intro h; exact absurd h hr
    · intro _
      exact ⟨rfl, by show (m.data.set _ _).length = _; rw [List.length_set], rfl⟩

theorem addr_inj {E : List (Node K V)} (hnd : (E.map Node.addr).Nodup) {a b : Node K V}
    (ha : a ∈ E) (hb : b ∈ E) (e : a.addr = b.addr) : a = b := by
  have h1 := deref_of_mem hnd ha
  have h2 := deref_of_mem hnd hb
  rw [e, h2] at h1
  injection h1 with h1
  exact h1.symm

theorem getElem?_set_true_iff {l : List Bool} {i j : Nat} (h : (l.set i true)[j]? = some false) :
    i ≠ j ∧ l[j]? = some false := by
  rw [List.getElem?_set] at h
  split at h
  · split at h <;> cases h
  · next e => exact ⟨e, h⟩

theorem tableInv_tomb {hasher : K → Nat} {heap : Nat} {data : List Iter}
    {used deleted : List Bool} {E L L1 : List (Node K V)}
    (inv : TableInv hasher heap data used deleted E L) {n : Node K V} (hn : n ∈ L) {i : Nat}
    (hu : used[i]? = some true) (hd : deleted[i]? = some false)
    (hdat : data[i]? = some (Iter.node n.addr))
    (hsub : List.Sublist L1 L) (hne : ∀ x, x ∈ L1 → x ≠ n)
    (hall : ∀ x, x ∈ L → x ≠ n → x ∈ L1) :
    TableInv hasher heap data used (deleted.set i true) E L1 := by
  constructor
  · exact inv.len_used
  · rw [List.length_set]; exact inv.len_deleted
  · exact inv.keys_nodup
  · exact inv.addr_nodup
  · exact inv.addr_lt
  · exact hsub.trans inv.sub
  · intro j hj
    by_cases e : i = j
    · rw [← e]; exact hu
    · rw [List.getElem?_set_ne e] at hj
      exact inv.tomb j hj
  · intro x hx
    obtain ⟨t, ht, hp, hu1, hd1, hdat1⟩ := inv.home x (hsub.subset hx)
    refine ⟨t, ht, hp, hu1, ?_, hdat1⟩
    have e : i ≠ slotAt data.length (hasher x.key % data.length) t := by
      intro e
      rw [← e, hdat] at hdat1
      injection hdat1 with h1; injection h1 with h1
      exact hne x hx (addr_inj inv.addr_nodup (inv.sub.subset (hsub.subset hx))
        (inv.sub.subset hn) h1.symm)
    rw [List.getElem?_set_ne e]
    exact hd1
  · intro j hu1 hd1
    obtain ⟨e, hd2⟩ := getElem?_set_true_iff hd1
    obtain ⟨x, hx, hdx⟩ := inv.live j hu1 hd2
    refine ⟨x, hall x hx ?_, hdx⟩
    intro ex
    rw [ex] at hdx
    exact e (inv.inj i j hu hd hu1 hd2 (by rw [hdat, hdx]))
  · intro j1 j2 hu1 hd1 hu2 hd2 hdd
    exact inv.inj j1 j2 hu1 (getElem?_set_true_iff hd1).2 hu2 (getElem?_set_true_iff hd2).2 hdd

theorem tableInv_shrink {hasher : K → Nat} {heap : Nat} {data : List Iter}
    {used deleted : List Bool} {E E1 L : List (Node K V)}
    (inv : TableInv hasher heap data used deleted E L)
    (h1 : List.Sublist L E1) (h2 : List.Sublist E1 E) :
    TableInv hasher heap data used deleted E1 L := by
  constructor
  · exact inv.len_used
  · exact inv.len_deleted
  · exact inv.keys_nodup.sublist (h2.map _)
  · exact inv.addr_nodup.sublist (h2.map _)
  · intro n hn; exact inv.addr_lt n (h2.subset hn)
  · exact h1
  · exact inv.tomb
  · exact inv.home
  · exact inv.live
  · exact inv.inj

theorem mem_eraseP_addr {E : List (Node K V)} (hnd : (E.map Node.addr).Nodup) {n : Node K V}
    (hn : n ∈ E) (x : Node K V) :
    x ∈ E.eraseP (fun y => decide (y.addr = n.addr)) ↔ x ∈ E ∧ x ≠ n := by
  induction E with
  | nil => cases hn
  | cons y ys ih =>
    rw [List.map_cons, List.nodup_cons] at hnd
    by_cases hy : y.addr = n.addr
    · have hyn : y = n := @addr_inj K V (y :: ys)
        (by rw [List.map_cons, List.nodup_cons]; exact hnd) y n
        (List.mem_cons_self _ _) hn hy
      rw [List.eraseP_cons_of_pos (by simp [hy])]
      subst hyn
      constructor
      · intro hx
        refine ⟨List.mem_cons_of_mem _ hx, ?_⟩
        intro e
        exact hnd.1 (e ▸ List.mem_map_of_mem Node.addr hx)
      · rintro ⟨hx, hne⟩
        rcases List.mem_cons.mp hx with e | e
        · exact absurd e hne
        · exact e
    · have hn2 : n ∈ ys := by
        rcases List.mem_cons.mp hn with e | e
        · exact absurd (by rw [e]) hy
        · exact e
      rw [List.eraseP_cons_of_neg (by simp [hy]), List.mem_cons, List.mem_cons, ih hnd.2 hn2]
      constructor
      · rintro (e | ⟨h1, h2⟩)
        · exact ⟨Or.inl e, fun e2 => hy (by rw [← e, e2])⟩
        · exact ⟨Or.inr h1, h2⟩
      · rintro ⟨e | e, h2⟩
        · exact Or.inl e
        · exact Or.inr ⟨e, h2⟩

theorem erase_absent [DecidableEq K] {m : HashMap K V} (inv : Inv m) {key : K}
    (hk : ∀ n, n ∈ m.elements → n.key ≠ key) : erase m key = some m := by
  have hC : 0 < m.data.length := lt_of_lt_of_le (by decide) inv.cap
  have hf := find_id_absent m inv.table hC (exists_unused inv.free) hk
  simp [erase, hf]

theorem erase_present [DecidableEq K] {m : HashMap K V} (inv : Inv m) {n : Node K V}
    (hn : n ∈ m.elements) :
    ∃ i, find_id m n.key = some i ∧ i < m.data.length ∧ m.used[i]? = some true ∧
      m.deleted[i]? = some false ∧ m.data[i]? = some (Iter.node n.addr) ∧
      erase m n.key = some { m with deleted := m.deleted.set i true,
                                    elements := m.elements.eraseP
                                      (fun y => decide (y.addr = n.addr)) } ∧
      Inv { m with deleted := m.deleted.set i true,
                   elements := m.elements.eraseP (fun y => decide (y.addr = n.addr)) } := by
  obtain ⟨i, hf, hlt, hu, hd, hdat⟩ := find_id_present m inv.table hn
  refine ⟨i, hf, hlt, hu, hd, hdat, ?_, ?_⟩
  · have hne : i ≠ m.data.length := by omega
    have hdl : i < m.deleted.length := by rw [inv.table.len_deleted]; exact hlt
    simp only [erase, hf, ne_eq, hne, not_false_eq_true, if_true,
      get_key_live m inv.table hn hdat, hdat, hdl, list_erase,
      deref_of_mem inv.table.addr_nodup hn]
  · have hsub : List.Sublist (m.elements.eraseP (fun y => decide (y.addr = n.addr)))
        m.elements := List.eraseP_sublist _
    have t1 := tableInv_tomb inv.table hn hu hd hdat hsub
      (fun x hx => ((mem_eraseP_addr inv.table.addr_nodup hn x).mp hx).2)
      (fun x hx hne => (mem_eraseP_addr inv.table.addr_nodup hn x).mpr ⟨hx, hne⟩)
    constructor
    · exact tableInv_shrink t1 (List.Sublist.refl _) hsub
    · exact inv.cap
    · exact inv.load
    · exact inv.used_le
    · exact le_trans hsub.length_le inv.size_le

theorem clearLoop_spec [DecidableEq K] :
    ∀ (rest : List (Node K V)) (m : HashMap K V),
      TableInv m.hasher m.heap m.data m.used m.deleted m.elements rest →
      ∃ del, clearLoop m rest = some { m with deleted := del } ∧
        TableInv m.hasher m.heap m.data m.used del m.elements [] := by
  intro rest
  induction rest with
  | nil =>
    intro m inv
    exact ⟨m.deleted, rfl, inv⟩
  | cons n rest ih =>
    intro m inv
    obtain ⟨i, hf, hlt, hu, hd, hdat⟩ := find_id_present m inv (List.mem_cons_self _ _)
    have hnd : ((n :: rest).map Node.addr).Nodup := inv.addr_nodup.sublist (inv.sub.map _)
    rw [List.map_cons, List.nodup_cons] at hnd
    have t1 := tableInv_tomb inv (List.mem_cons_self _ _) hu hd hdat
      (List.sublist_cons_self n rest)
      (fun x hx e => hnd.1 (e ▸ List.mem_map_of_mem Node.addr hx))
      (fun x hx hne => by
        rcases List.mem_cons.mp hx with e | e
        · exact absurd e hne
        · exact e)
    obtain ⟨del, hloop, t2⟩ := ih { m with deleted := m.deleted.set i true } t1
    refine ⟨del, ?_, t2⟩
    have hdl : i < m.deleted.length := by rw [inv.len_deleted]; exact hlt
    simp only [clearLoop, hf, hdl, if_true]
    exact hloop

theorem clear_spec [DecidableEq K] {m : HashMap K V} (inv : Inv m) :
    ∃ del, clear m = some ({ m with deleted := del, elements := [] } : HashMap K V) ∧
      Inv ({ m with deleted := del, elements := [] } : HashMap K V) := by
  obtain ⟨del, hloop, t⟩ := clearLoop_spec m.elements m inv.table
  refine ⟨del, by simp only [clear, hloop], ?_⟩
  constructor
  · exact tableInv_shrink t (List.Sublist.refl _) (List.nil_sublist _)
  · exact inv.cap
  · exact inv.load
  · exact inv.used_le
  · exact Nat.zero_le _

theorem inv_new (hasher : K → Nat) : Inv (HashMap.new hasher : HashMap K V) := by
  constructor
  · exact tableInv_replicate hasher 0 SZ
  · simp [HashMap.new, SZ]
  · simp [HashMap.new]
  · simp [HashMap.new, List.count_replicate]
  · simp [HashMap.new]

theorem inv_fresh (hasher : K → Nat) (heap : Nat) :
    Inv ({ cnt := 0, data := List.replicate SZ Iter.null, used := List.replicate SZ false,
           deleted := List.replicate SZ false, elements := [], hasher := hasher,
           heap := heap } : HashMap K V) := by
  constructor
  · exact tableInv_replicate hasher heap SZ
  · simp [SZ]
  · simp
  · simp [List.count_replicate]
  · simp

theorem mem_iterate {m : HashMap K V} {q : K × V} :
    q ∈ iterate m ↔ ∃ n, n ∈ m.elements ∧ n.key = q.1 ∧ n.val = q.2 := by
  simp only [iterate, List.mem_map, Node.entry]
  constructor
  · rintro ⟨n, hn, e⟩
    exact ⟨n, hn, by rw [← e], by rw [← e]⟩
  · rintro ⟨n, hn, e1, e2⟩
    exact ⟨n, hn, by rw [e1, e2]⟩

theorem absent_iff {m : HashMap K V} {key : K} :
    (∀ n, n ∈ m.elements → n.key ≠ key) ↔ key ∉ (iterate m).map Prod.fst := by
  simp only [iterate, List.map_map, List.mem_map, Function.comp, Node.entry, not_exists, not_and]

theorem insert_total [DecidableEq K] {m : HashMap K V} (inv : Inv m) (p : K × V) :
    ∃ m1, insert m p = some m1 ∧ Inv m1 ∧ m1.hasher = m.hasher := by
  by_cases h : ∃ n, n ∈ m.elements ∧ n.key = p.1
  · obtain ⟨n, hn, e⟩ := h
    refine ⟨m, ?_, inv, rfl⟩
    have := insert_present inv hn p.2
    rw [e] at this
    exact this
  · push_neg at h
    obtain ⟨m1, h1, h2, _, h3, _⟩ := insert_absent inv p h
    exact ⟨m1, h1, h2, h3⟩

theorem insertAll_total [DecidableEq K] :
    ∀ (l : List (K × V)) (m : HashMap K V), Inv m →
      ∃ m1, insertAll m l = some m1 ∧ Inv m1 ∧ m1.hasher = m.hasher := by
  intro l
  induction l with
  | nil => intro m inv; exact ⟨m, rfl, inv, rfl⟩
  | cons p rest ih =>
    intro m inv
    obtain ⟨m1, h1, inv1, hh1⟩ := insert_total inv p
    obtain ⟨m2, h2, inv2, hh2⟩ := ih m1 inv1
    exact ⟨m2, by simp only [insertAll, h1]; exact h2, inv2, by rw [hh2, hh1]⟩

theorem insert_absent_content [DecidableEq K] {m : HashMap K V} (inv : Inv m) (p : K × V)
    (hp : ∀ n, n ∈ m.elements → n.key ≠ p.1) :
    ∃ m1, insert m p = some m1 ∧ Inv m1 ∧ (∀ q, q ∈ iterate m1 ↔ q = p ∨ q ∈ iterate m) ∧
      size m1 = size m + 1 := by
  obtain ⟨m1, h1, inv1, _, _, hA, hB⟩ := insert_absent inv p hp
  refine ⟨m1, h1, inv1, ?_⟩
  by_cases hr : (m.cnt + 1) * LOAD_FACTOR > m.data.length
  · obtain ⟨e, _⟩ := hA hr
    constructor
    · intro q
      rw [e]
      simp only [List.mem_append, List.mem_reverse, List.mem_singleton]
      exact Or.comm
    · have := congrArg List.length e
      simpa [iterate, size] using this
  · obtain ⟨e, _, _⟩ := hB hr
    constructor
    · intro q
      simp only [iterate, e, List.map_cons, List.mem_cons, Node.entry]
    · simp [size, e]

theorem find_entry_present [DecidableEq K] {m : HashMap K V} (inv : Inv m) {n : Node K V}
    (hn : n ∈ m.elements) : find_entry m n.key = some (some n.entry) := by
  simp [find_entry, find_present inv hn, deref_of_mem inv.table.addr_nodup hn]

theorem find_entry_absent [DecidableEq K] {m : HashMap K V} (inv : Inv m) {key : K}
    (hk : ∀ n, n ∈ m.elements → n.key ≠ key) : find_entry m key = some none := by
  simp [find_entry, find_absent inv hk]

theorem find_entry_mem [DecidableEq K] {m : HashMap K V} (inv : Inv m) {q : K × V}
    (hq : q ∈ iterate m) : find_entry m q.1 = some (some q) := by
  obtain ⟨n, hn, e1, e2⟩ := mem_iterate.mp hq
  have := find_entry_present inv hn
  rw [e1] at this
  rw [this]
  simp [Node.entry, e1, e2]

theorem find_entry_congr [DecidableEq K] {m m1 : HashMap K V} (inv : Inv m) (inv1 : Inv m1)
    {key : K} (h : ∀ v, (key, v) ∈ iterate m1 ↔ (key, v) ∈ iterate m) :
    find_entry m1 key = find_entry m key := by
  by_cases hk : ∃ n, n ∈ m.elements ∧ n.key = key
  · obtain ⟨n, hn, e⟩ := hk
    have h1 : (key, n.val) ∈ iterate m := mem_iterate.mpr ⟨n, hn, e, rfl⟩
    rw [find_entry_mem inv h1, find_entry_mem inv1 ((h n.val).mpr h1)]
  · push_neg at hk
    have hk1 : ∀ n, n ∈ m1.elements → n.key ≠ key := by
      intro n hn e
      have h1 : (key, n.val) ∈ iterate m1 := mem_iterate.mpr ⟨n, hn, e, rfl⟩
      obtain ⟨x, hx, e1, _⟩ := mem_iterate.mp ((h n.val).mp h1)
      exact hk x hx e1
    rw [find_entry_absent inv hk, find_entry_absent inv1 hk1]

theorem operator_index_present [DecidableEq K] [Inhabited V] {m : HashMap K V} (inv : Inv m)
    {n : Node K V} (hn : n ∈ m.elements) : operator_index m n.key = some (m, n) := by
  obtain ⟨i, hf, hlt, _, _, hd⟩ := find_id_present m inv.table hn
  have hne : i ≠ m.data.length := by omega
  simp [operator_index, hf, hne, hd, deref_of_mem inv.table.addr_nodup hn]

theorem operator_index_absent [DecidableEq K] [Inhabited V] {m : HashMap K V} (inv : Inv m)
    {key : K} (hk : ∀ n, n ∈ m.elements → n.key ≠ key) :
    ∃ m1 n1, insert m (key, default) = some m1 ∧ operator_index m key = some (m1, n1) ∧
      Inv m1 ∧ n1 ∈ m1.elements ∧ n1.key = key ∧ n1.val = default := by
  have hC : 0 < m.data.length := lt_of_lt_of_le (by decide) inv.cap
  have hf := find_id_absent m inv.table hC (exists_unused inv.free) hk
  obtain ⟨m1, h1, inv1, hmem, _⟩ := insert_absent_content inv (key, default) hk
  obtain ⟨n1, hn1, e1, e2⟩ := mem_iterate.mp ((hmem (key, default)).mpr (Or.inl rfl))
  simp only at e1 e2
  obtain ⟨i, hf1, hlt, _, _, hd⟩ := find_id_present m1 inv1.table hn1
  rw [e1] at hf1
  refine ⟨m1, n1, h1, ?_, inv1, hn1, e1, e2⟩
  simp [operator_index, hf, h1, hf1, hd, deref_of_mem inv1.table.addr_nodup hn1]

theorem store_spec {m m1 : HashMap K V} (inv : Inv m) {addr : Nat} {v : V}
    (h : store m addr v = some m1) : Inv m1 := by
  simp only [store] at h
  split at h
  · cases h
  · injection h with h
    subst h
    have hkey : ∀ x : Node K V,
        (if x.addr = addr then { x with val := v } else x).key = x.key := by
      intro x; split <;> rfl
    have haddr : ∀ x : Node K V,
        (if x.addr = addr then { x with val := v } else x).addr = x.addr := by
      intro x; split <;> rfl
    have t := inv.table
    constructor
    · constructor
      · exact t.len_used
      · exact t.len_deleted
      · show ((m.elements.map _).map Node.key).Nodup
        rw [List.map_map]
        have : (Node.key ∘ fun x : Node K V =>
            if x.addr = addr then { x with val := v } else x) = Node.key := funext hkey
        rw [this]; exact t.keys_nodup
      · show ((m.elements.map _).map Node.addr).Nodup
        rw [List.map_map]
        have : (Node.addr ∘ fun x : Node K V =>
            if x.addr = addr then { x with val := v } else x) = Node.addr := funext haddr
        rw [this]; exact t.addr_nodup
      · intro n hn
        obtain ⟨x, hx, e⟩ := List.mem_map.mp hn
        rw [← e, haddr]; exact t.addr_lt x hx
      · exact List.Sublist.refl _
      · exact t.tomb
      · intro n hn
        obtain ⟨x, hx, e⟩ := List.mem_map.mp hn
        rw [← e, haddr, hkey]; exact t.home x hx
      · intro i hu hd
        obtain ⟨x, hx, e⟩ := t.live i hu hd
        exact ⟨_, List.mem_map_of_mem _ hx, by rw [haddr]; exact e⟩
      · exact t.inj
    · exact inv.cap
    · exact inv.load
    · exact inv.used_le
    · show (m.elements.map _).length ≤ m.cnt
      rw [List.length_map]; exact inv.size_le

theorem reachable_inv [DecidableEq K] [Inhabited V] {m : HashMap K V} (h : Reachable m) :
    Inv m := by
  induction h with
  | new hasher => exact inv_new hasher
  | insert p _ h ih =>
    obtain ⟨m2, h2, inv2, _⟩ := insert_total ih p
    rw [h2] at h; injection h with h; rw [← h]; exact inv2
  | @erase m m1 key _ h ih =>
    by_cases hk : ∃ n, n ∈ m.elements ∧ n.key = key
    · obtain ⟨n, hn, e⟩ := hk
      obtain ⟨i, _, _, _, _, _, h2, inv2⟩ := erase_present ih hn
      rw [e, h] at h2; injection h2 with h2; rw [h2]; exact inv2
    · push_neg at hk
      rw [erase_absent ih hk] at h; injection h with h; rw [← h]; exact ih
  | clear _ h ih =>
    obtain ⟨del, h2, inv2⟩ := clear_spec ih
    rw [h] at h2; injection h2 with h2; rw [h2]; exact inv2
  | @operator_index m m1 n key _ h ih =>
    by_cases hk : ∃ n, n ∈ m.elements ∧ n.key = key
    · obtain ⟨x, hx, e⟩ := hk
      have h2 := operator_index_present ih hx
      rw [e, h] at h2; injection h2 with h2; injection h2 with h2 h3; rw [h2]; exact ih
    · push_neg at hk
      obtain ⟨m2, n2, _, h2, inv2, _⟩ := operator_index_absent ih hk
      rw [h] at h2; injection h2 with h2; injection h2 with h2 h3; rw [h2]; exact inv2
  | @operator_assign m o m1 _ _ h ih _ =>
    obtain ⟨m2, h2, inv2, _⟩ := insertAll_total (iterate o) _ (inv_fresh o.hasher m.heap)
    simp only [operator_assign] at h
    rw [h] at h2; injection h2 with h2; rw [h2]; exact inv2
  | store addr v _ h ih => exact store_spec ih h

theorem exampleOne_eq : insert (HashMap.new fun k => k) (10, 1) = some exampleOne := rfl

theorem exampleTwo_eq : insert exampleOne (20, 2) = some exampleTwo := rfl

theorem exampleOne_reachable : Reachable exampleOne :=
  Reachable.insert (10, 1) (Reachable.new fun k => k) exampleOne_eq

theorem exampleTwo_reachable : Reachable exampleTwo :=
  Reachable.insert (20, 2) exampleOne_reachable exampleTwo_eq

theorem keys_iterate (m : HashMap K V) :
    (iterate m).map Prod.fst = m.elements.map Node.key := by
  simp [iterate, Node.entry, Function.comp]

theorem find_entry_total [DecidableEq K] {m : HashMap K V} (inv : Inv m) (key : K) :
    ∃ r, find_entry m key = some r := by
  rcases find_total inv key with ⟨_, h⟩ | ⟨n, hn, e, _⟩
  · exact ⟨none, find_entry_absent inv h⟩
  · exact ⟨some n.entry, by rw [← e]; exact find_entry_present inv hn⟩

theorem present_of_find_entry [DecidableEq K] {m : HashMap K V} (inv : Inv m) {key : K}
    {e : K × V} (h : find_entry m key = some (some e)) :
    ∃ n, n ∈ m.elements ∧ n.key = key ∧ n.entry = e := by
  rcases find_total inv key with ⟨_, h2⟩ | ⟨n, hn, e1, _⟩
  · rw [find_entry_absent inv h2] at h; cases h
  · have h3 := find_entry_present inv hn
    rw [e1, h] at h3
    injection h3 with h3; injection h3 with h3
    exact ⟨n, hn, e1, h3.symm⟩

theorem insertAll_distinct [DecidableEq K] :
    ∀ (l : List (K × V)) (m : HashMap K V), Inv m → (l.map Prod.fst).Nodup →
      (∀ p, p ∈ l → ∀ n, n ∈ m.elements → n.key ≠ p.1) →
      ∃ m1, insertAll m l = some m1 ∧ Inv m1 ∧ ∀ q, q ∈ iterate m1 ↔ q ∈ l ∨ q ∈ iterate m := by
  intro l
  induction l with
  | nil =>
    intro m inv _ _
    exact ⟨m, rfl, inv, fun q => by simp⟩
  | cons p rest ih =>
    intro m inv hnd hdisj
    rw [List.map_cons, List.nodup_cons] at hnd
    obtain ⟨m1, h1, inv1, hmem, _⟩ :=
      insert_absent_content inv p (hdisj p (List.mem_cons_self _ _))
    obtain ⟨m2, h2, inv2, hmem2⟩ := ih m1 inv1 hnd.2 (by
      intro p1 hp1 n hn e
      have hq : (n.key, n.val) ∈ iterate m1 := mem_iterate.mpr ⟨n, hn, rfl, rfl⟩
      rcases (hmem _).mp hq with e1 | e1
      · apply hnd.1
        have : p.1 = p1.1 := by rw [← e1]; exact e
        rw [this]
        exact List.mem_map_of_mem Prod.fst hp1
      · obtain ⟨x, hx, ex, _⟩ := mem_iterate.mp e1
        exact hdisj p1 (List.mem_cons_of_mem _ hp1) x hx (by rw [ex]; exact e))
    refine ⟨m2, by simp only [insertAll, h1]; exact h2, inv2, ?_⟩
    intro q
    rw [hmem2, hmem, List.mem_cons]
    constructor
    · rintro (h | h | h)
      · exact Or.inl (Or.inr h)
      · exact Or.inl (Or.inl h)
      · exact Or.inr h
    · rintro ((h | h) | h)
      · exact Or.inr (Or.inl h)
      · exact Or.inl h
      · exact Or.inr (Or.inr h)

/-- C1: in a reachable state, inserting an absent key `k` with value `v` succeeds,
`find(k)` then designates the entry `(k, v)`, and for every other key `find`
designates the same entry (or `end()`) as before, whether or not the table was
rebuilt; and after inserting a list of pairs with pairwise distinct keys into a
fresh map, `find` of each inserted key designates the inserted pair. -/
theorem insert_then_find [DecidableEq K] [Inhabited V] (m : HashMap K V) (k : K) (v : V)
    (hr : Reachable m) (habs : find m k = some Iter.past)
    (hasher : K → Nat) (l : List (K × V)) (hl : (l.map Prod.fst).Nodup) :
    (∃ m1, insert m (k, v) = some m1 ∧ find_entry m1 k = some (some (k, v)) ∧
      ∀ k1, k1 ≠ k → ∃ r, find_entry m k1 = some r ∧ find_entry m1 k1 = some r) ∧
    (∃ m2, insertAll (HashMap.new hasher) l = some m2 ∧
      ∀ p, p ∈ l → find_entry m2 p.1 = some (some p)) := by
  have inv := reachable_inv hr
  constructor
  · obtain ⟨m1, h1, inv1, hmem, _⟩ :=
      insert_absent_content inv (k, v) (absent_of_find_past inv habs)
    refine ⟨m1, h1, find_entry_mem inv1 ((hmem (k, v)).mpr (Or.inl rfl)), ?_⟩
    intro k1 hk1
    obtain ⟨r, hr1⟩ := find_entry_total inv k1
    refine ⟨r, hr1, ?_⟩
    rw [← hr1]
    apply find_entry_congr inv inv1
    intro v1
    rw [hmem]
    constructor
    · rintro (h | h)
      · exact absurd (congrArg Prod.fst h) hk1
      · exact h
    · exact Or.inr
  · obtain ⟨m2, h2, inv2, hmem⟩ := insertAll_distinct l (HashMap.new hasher) (inv_new hasher) hl
      (by intro _ _ n hn; cases hn)
    exact ⟨m2, h2, fun p hp => find_entry_mem inv2 ((hmem p).mpr (Or.inl hp))⟩

/-- C1, checked on the state holding key 10 for the absent key 20 (this
insertion rebuilds the table) and on the list of keys 10, 20, 30. -/
theorem insert_then_find_witness :
    (Reachable exampleOne ∧ find exampleOne 20 = some Iter.past ∧
      ([((10 : Nat), (1 : Nat)), (20, 2), (30, 3)].map Prod.fst).Nodup) ∧
    ((∃ m1, insert exampleOne (20, 2) = some m1 ∧ find_entry m1 20 = some (some (20, 2)) ∧
      ∀ k1, k1 ≠ 20 → ∃ r, find_entry exampleOne k1 = some r ∧ find_entry m1 k1 = some r) ∧
    (∃ m2, insertAll (HashMap.new fun k => k) [(10, 1), (20, 2), (30, 3)] = some m2 ∧
      ∀ p, p ∈ [((10 : Nat), (1 : Nat)), (20, 2), (30, 3)] →
        find_entry m2 p.1 = some (some p))) :=
  ⟨⟨exampleOne_reachable, rfl, by decide⟩,
   insert_then_find exampleOne 20 2 exampleOne_reachable rfl (fun k => k)
     [(10, 1), (20, 2), (30, 3)] (by decide)⟩

/-- C2: in a reachable state `erase(k)` succeeds, afterwards `find(k)` is
`end()`, every other key has the same `find` result and designated entry as
before, and `size()` has dropped by one when `k` was present. -/
theorem erase_then_find [DecidableEq K] [Inhabited V] (m : HashMap K V) (k : K)
    (hr : Reachable m) :
    ∃ m1, erase m k = some m1 ∧ find m1 k = some Iter.past ∧
      (∀ k1, k1 ≠ k → find m1 k1 = find m k1 ∧
        ∃ r, find_entry m k1 = some r ∧ find_entry m1 k1 = some r) ∧
      (find m k ≠ some Iter.past → size m1 + 1 = size m) := by
  have inv := reachable_inv hr
  rcases find_total inv k with ⟨hpast, habs⟩ | ⟨n, hn, e, hf⟩
  · refine ⟨m, erase_absent inv habs, hpast, ?_, fun h => absurd hpast h⟩
    intro k1 _
    exact ⟨rfl, by obtain ⟨r, h⟩ := find_entry_total inv k1; exact ⟨r, h, h⟩⟩
  · obtain ⟨i, _, _, _, _, _, he, inv1⟩ := erase_present inv hn
    rw [e] at he
    have hmem := mem_eraseP_addr inv.table.addr_nodup hn
    refine ⟨_, he, ?_, ?_, ?_⟩
    · apply find_absent inv1
      intro x hx ex
      have hx2 := (hmem x).mp hx
      exact hx2.2 (key_inj inv.table.keys_nodup hx2.1 hn (by rw [ex, e]))
    · intro k1 hk1
      rcases find_total inv k1 with ⟨hpast1, habs1⟩ | ⟨n1, hn1, e1, hf1⟩
      · have habs2 : ∀ x, x ∈ (m.elements.eraseP fun y => decide (y.addr = n.addr)) →
            x.key ≠ k1 := fun x hx => habs1 x ((hmem x).mp hx).1
        refine ⟨by rw [hpast1]; exact find_absent inv1 habs2, none,
          find_entry_absent inv habs1, find_entry_absent inv1 habs2⟩
      · have hn2 : n1 ∈ (m.elements.eraseP fun y => decide (y.addr = n.addr)) :=
          (hmem n1).mpr ⟨hn1, fun ex => hk1 (by rw [← e1, ex, e])⟩
        have a1 := find_present inv1 hn2
        have a2 := find_entry_present inv1 hn2
        have a3 := find_entry_present inv hn1
        rw [e1] at a1 a2 a3
        exact ⟨by rw [hf1]; exact a1, some n1.entry, a3, a2⟩
    · intro _
      show (m.elements.eraseP fun y => decide (y.addr = n.addr)).length + 1 = m.elements.length
      rw [List.length_eraseP_of_mem hn (by simp)]
      have : 0 < m.elements.length := List.length_pos_of_mem hn
      omega

/-- C2, checked on the state holding keys 10 and 20 for `erase(10)`. -/
theorem erase_then_find_witness :
    Reachable exampleTwo ∧
    ∃ m1, erase exampleTwo 10 = some m1 ∧ find m1 10 = some Iter.past ∧
      (∀ k1, k1 ≠ 10 → find m1 k1 = find exampleTwo k1 ∧
        ∃ r, find_entry exampleTwo k1 = some r ∧ find_entry m1 k1 = some r) ∧
      (find exampleTwo 10 ≠ some Iter.past → size m1 + 1 = size exampleTwo) :=
  ⟨exampleTwo_reachable, erase_then_find exampleTwo 10 exampleTwo_reachable⟩

/-- C3: in a reachable state where `k` is present with value `v`, `insert(k, w)`
returns the state it was given: `find(k)` still designates `(k, v)` and the
size, the list, the three vectors, the counter and the capacity are unchanged. -/
theorem insert_existing_noop [DecidableEq K] [Inhabited V] (m : HashMap K V) (k : K) (v w : V)
    (hr : Reachable m) (hp : find_entry m k = some (some (k, v))) :
    ∃ m1, insert m (k, w) = some m1 ∧ m1 = m ∧ find_entry m1 k = some (some (k, v)) ∧
      size m1 = size m ∧ m1.elements = m.elements ∧ iterate m1 = iterate m ∧
      m1.data = m.data ∧ m1.used = m.used ∧ m1.deleted = m.deleted ∧ m1.cnt = m.cnt ∧
      m1.data.length = m.data.length := by
  have inv := reachable_inv hr
  obtain ⟨n, hn, e, _⟩ := present_of_find_entry inv hp
  have h := insert_present inv hn w
  rw [e] at h
  exact ⟨m, h, rfl, hp, rfl, rfl, rfl, rfl, rfl, rfl, rfl, rfl⟩

/-- C3, checked on the state holding keys 10 and 20 for `insert({10, 7})`. -/
theorem insert_existing_noop_witness :
    (Reachable exampleTwo ∧ find_entry exampleTwo 10 = some (some (10, 1))) ∧
    ∃ m1, insert exampleTwo (10, 7) = some m1 ∧ m1 = exampleTwo ∧
      find_entry m1 10 = some (some (10, 1)) ∧
      size m1 = size exampleTwo ∧ m1.elements = exampleTwo.elements ∧
      iterate m1 = iterate exampleTwo ∧
      m1.data = exampleTwo.data ∧ m1.used = exampleTwo.used ∧
      m1.deleted = exampleTwo.deleted ∧ m1.cnt = exampleTwo.cnt ∧
      m1.data.length = exampleTwo.data.length :=
  ⟨⟨exampleTwo_reachable, rfl⟩, insert_existing_noop exampleTwo 10 1 7 exampleTwo_reachable rfl⟩

/-- C4: in a reachable state the keys of the list are pairwise distinct, `find`
returns a node exactly for the keys of the list and `end()` for all others, so
the keys on which `find` succeeds form a finite set of exactly `size()` keys. -/
theorem size_counts_found_keys [DecidableEq K] [Inhabited V] (m : HashMap K V)
    (hr : Reachable m) :
    ((iterate m).map Prod.fst).Nodup ∧
    (∀ k, (∃ a, find m k = some (Iter.node a)) ↔ k ∈ (iterate m).map Prod.fst) ∧
    (∀ k, k ∉ (iterate m).map Prod.fst → find m k = some Iter.past) ∧
    ∃ s : Finset K, (∀ k, k ∈ s ↔ ∃ a, find m k = some (Iter.node a)) ∧ s.card = size m := by
  have inv := reachable_inv hr
  have hnd : ((iterate m).map Prod.fst).Nodup := by
    rw [keys_iterate]; exact inv.table.keys_nodup
  have hiff : ∀ k, (∃ a, find m k = some (Iter.node a)) ↔ k ∈ (iterate m).map Prod.fst := by
    intro k
    constructor
    · rintro ⟨a, ha⟩
      rcases find_total inv k with ⟨hpast, _⟩ | ⟨n, hn, e, _⟩
      · rw [hpast] at ha; cases ha
      · rw [keys_iterate, ← e]; exact List.mem_map_of_mem Node.key hn
    · intro hk
      rw [keys_iterate] at hk
      obtain ⟨n, hn, e⟩ := List.mem_map.mp hk
      exact ⟨n.addr, by rw [← e]; exact find_present inv hn⟩
  refine ⟨hnd, hiff, fun k hk => find_absent inv (absent_iff.mpr hk), ?_⟩
  refine ⟨((iterate m).map Prod.fst).toFinset, ?_, ?_⟩
  · intro k
    rw [List.mem_toFinset, hiff]
  · rw [List.toFinset_card_of_nodup hnd]
    simp [iterate, size]

/-- C4, checked on the state holding keys 10 and 20. -/
theorem size_counts_found_keys_witness :
    Reachable exampleTwo ∧
    (((iterate exampleTwo).map Prod.fst).Nodup ∧
    (∀ k, (∃ a, find exampleTwo k = some (Iter.node a)) ↔
      k ∈ (iterate exampleTwo).map Prod.fst) ∧
    (∀ k, k ∉ (iterate exampleTwo).map Prod.fst → find exampleTwo k = some Iter.past) ∧
    ∃ s : Finset Nat, (∀ k, k ∈ s ↔ ∃ a, find exampleTwo k = some (Iter.node a)) ∧
      s.card = size exampleTwo) :=
  ⟨exampleTwo_reachable, size_counts_found_keys exampleTwo exampleTwo_reachable⟩

/-- C5 (as amended): for every hash function and pairwise distinct keys `a`,
`b`, `c`, inserting them in this order into a fresh map succeeds and iteration
then yields `b`, `a`, `c`: the second and the third insertion each rebuild the
table, and each rebuild reverses the list. -/
theorem three_inserts_order [DecidableEq K] (hasher : K → Nat) (a b c : K) (va vb vc : V)
    (hab : a ≠ b) (hac : a ≠ c) (hbc : b ≠ c) :
    ∃ m, insertAll (HashMap.new hasher) [(a, va), (b, vb), (c, vc)] = some m ∧
      iterate m = [(b, vb), (a, va), (c, vc)] := by
  obtain ⟨m1, h1, inv1, c1, _, _, hB1⟩ :=
    insert_absent (inv_new hasher) (a, va) (by intro n hn; cases hn)
  obtain ⟨e1, l1, _⟩ := hB1 (by simp [HashMap.new, LOAD_FACTOR, SZ])
  have i1 : iterate m1 = [(a, va)] := by simp [iterate, e1, Node.entry, HashMap.new]
  obtain ⟨m2, h2, inv2, c2, _, hA2, _⟩ := insert_absent inv1 (b, vb)
    (absent_iff.mpr (by rw [i1]; simpa using hab.symm))
  obtain ⟨i2, l2⟩ := hA2 (by rw [c1, l1]; simp [HashMap.new, LOAD_FACTOR, SZ])
  rw [i1] at i2
  obtain ⟨m3, h3, inv3, c3, _, hA3, _⟩ := insert_absent inv2 (c, vc)
    (absent_iff.mpr (by rw [i2]; simpa using ⟨hac.symm, hbc.symm⟩))
  obtain ⟨i3, _⟩ := hA3 (by rw [c2, l2, c1, l1]; simp [HashMap.new, LOAD_FACTOR, SZ])
  rw [i2] at i3
  exact ⟨m3, by simp only [insertAll, h1, h2, h3], by rw [i3]; rfl⟩

/-- C5, checked on the keys 10, 20, 30 with the identity hash. -/
theorem three_inserts_order_witness :
    ((10 : Nat) ≠ 20 ∧ (10 : Nat) ≠ 30 ∧ (20 : Nat) ≠ 30) ∧
    ∃ m, insertAll (HashMap.new fun k => k) [((10 : Nat), (1 : Nat)), (20, 2), (30, 3)] =
        some m ∧ iterate m = [(20, 2), (10, 1), (30, 3)] :=
  ⟨by decide, three_inserts_order (fun k => k) 10 20 30 1 2 3 (by decide) (by decide)
    (by decide)⟩

/-- C5 as stated fails: with the identity hash, inserting the keys 10, 20, 30
into a fresh map yields the order 20, 10, 30 and not 30, 20, 10. -/
theorem three_inserts_order_refuted :
    (insertAll (HashMap.new fun k => k) [((10 : Nat), (1 : Nat)), (20, 2), (30, 3)]).map
        iterate = some [(20, 2), (10, 1), (30, 3)] ∧
    ¬ ∃ m, insertAll (HashMap.new fun k => k) [((10 : Nat), (1 : Nat)), (20, 2), (30, 3)] =
        some m ∧ iterate m = [(30, 3), (20, 2), (10, 1)] := by
  have h : (insertAll (HashMap.new fun k => k) [((10 : Nat), (1 : Nat)), (20, 2), (30, 3)]).map
      iterate = some [(20, 2), (10, 1), (30, 3)] := rfl
  refine ⟨h, ?_⟩
  rintro ⟨m, hm, hi⟩
  rw [hm, Option.map_some', hi] at h
  exact absurd h (by decide)

/-- C6: in a reachable state `at(k)` returns normally or throws
`std::out_of_range`; it throws exactly when `find(k)` is `end()`, and otherwise
returns the value of the entry `find(k)` designates (`at` is `const`, so it has
no output state).  After `insert({x, one})` and `erase(x)` on a fresh map,
`at(x)` throws and `size()` is 0. -/
theorem at_out_of_range_iff_absent [DecidableEq K] [Inhabited V] (m : HashMap K V) (k : K)
    (hr : Reachable m) (hasher : K → Nat) (x : K) (one : V) :
    (at_ m k = some AtResult.out_of_range ↔ find m k = some Iter.past) ∧
    (∀ e, find_entry m k = some (some e) → at_ m k = some (AtResult.value e.2)) ∧
    (∃ r, at_ m k = some r) ∧
    (∃ m1 m2, insert (HashMap.new hasher) (x, one) = some m1 ∧ erase m1 x = some m2 ∧
      at_ m2 x = some AtResult.out_of_range ∧ size m2 = 0) := by
  have inv := reachable_inv hr
  refine ⟨?_, ?_, ?_, ?_⟩
  · rcases find_total inv k with ⟨hpast, _⟩ | ⟨n, hn, e, hf⟩
    · simp [at_, hpast]
    · rw [← e] at hf ⊢
      simp [at_, hf, deref_of_mem inv.table.addr_nodup hn]
  · intro e he
    obtain ⟨n, hn, e1, e2⟩ := present_of_find_entry inv he
    have hf := find_present inv hn
    rw [e1] at hf
    simp [at_, hf, deref_of_mem inv.table.addr_nodup hn, ← e2, Node.entry]
  · rcases find_total inv k with ⟨hpast, _⟩ | ⟨n, hn, e, hf⟩
    · exact ⟨AtResult.out_of_range, by simp [at_, hpast]⟩
    · rw [← e] at hf ⊢
      exact ⟨AtResult.value n.val, by simp [at_, hf, deref_of_mem inv.table.addr_nodup hn]⟩
  · obtain ⟨m1, h1, inv1, _, _, _, hB1⟩ :=
      insert_absent (inv_new hasher) (x, one) (by intro n hn; cases hn)
    obtain ⟨e1, _, _⟩ := hB1 (by simp [HashMap.new, LOAD_FACTOR, SZ])
    have hn : ({ addr := 0, key := x, val := one } : Node K V) ∈ m1.elements := by
      rw [e1]; exact List.mem_cons_self _ _
    obtain ⟨i, _, _, _, _, _, he, inv2⟩ := erase_present inv1 hn
    have hnil : m1.elements.eraseP (fun y => decide (y.addr = 0)) = [] := by
      rw [e1]; simp [HashMap.new]
    refine ⟨m1, _, h1, he, ?_, ?_⟩
    · have hf := @find_absent K V _ _ inv2 x (by
        intro n1 hn1
        have : n1 ∈ m1.elements.eraseP (fun y => decide (y.addr = 0)) := hn1
        rw [hnil] at this; cases this)
      simp [at_, hf]
    · show (m1.elements.eraseP (fun y => decide (y.addr = 0))).length = 0
      rw [hnil]; rfl

/-- C6, checked on the state holding keys 10 and 20 for `at(10)`, and on
`insert({5, 1})`, `erase(5)`. -/
theorem at_out_of_range_iff_absent_witness :
    Reachable exampleTwo ∧
    ((at_ exampleTwo 10 = some AtResult.out_of_range ↔ find exampleTwo 10 = some Iter.past) ∧
    (∀ e, find_entry exampleTwo 10 = some (some e) →
      at_ exampleTwo 10 = some (AtResult.value e.2)) ∧
    (∃ r, at_ exampleTwo 10 = some r) ∧
    (∃ m1 m2, insert (HashMap.new fun k => k) ((5 : Nat), (1 : Nat)) = some m1 ∧
      erase m1 5 = some m2 ∧ at_ m2 5 = some AtResult.out_of_range ∧ size m2 = 0)) :=
  ⟨exampleTwo_reachable,
   at_out_of_range_iff_absent exampleTwo 10 exampleTwo_reachable (fun k => k) 5 1⟩

/-- C7: in a reachable state `operator[](k)` returns (never `none`) a node of
the resulting list whose key is `k` and which `find(k)` designates.  If `k`
was present with value `v`, the state is unchanged and the node holds `v`; if
`k` was absent, the state is that of `insert({k, ValueType()})`, the size has
grown by one, the node holds the default value, and the second `find_id`
returned a slot below the capacity, pointing at the node. -/
theorem operator_index_returns_entry [DecidableEq K] [Inhabited V] (m : HashMap K V) (k : K)
    (hr : Reachable m) :
    ∃ m1 n, operator_index m k = some (m1, n) ∧ n ∈ m1.elements ∧ n.key = k ∧
      find_entry m1 k = some (some (k, n.val)) ∧
      (∀ v, find_entry m k = some (some (k, v)) → n.val = v ∧ m1 = m ∧ size m1 = size m) ∧
      (find m k = some Iter.past →
        n.val = default ∧ size m1 = size m + 1 ∧ insert m (k, default) = some m1 ∧
        ∃ id, find_id m1 k = some id ∧ id < m1.data.length ∧
          m1.data[id]? = some (Iter.node n.addr)) := by
  have inv := reachable_inv hr
  rcases find_total inv k with ⟨hpast, habs⟩ | ⟨n, hn, e, hf⟩
  · obtain ⟨m1, n1, hins, hop, inv1, hn1, e1, e2⟩ := operator_index_absent inv habs
    refine ⟨m1, n1, hop, hn1, e1, ?_, ?_, ?_⟩
    · have := find_entry_present inv1 hn1
      rw [e1] at this
      rw [this, Node.entry, e1]
    · intro v hv
      rw [find_entry_absent inv habs] at hv; cases hv
    · intro _
      obtain ⟨m2, h2, _, _, hsz⟩ := insert_absent_content inv (k, default) habs
      rw [hins] at h2; injection h2 with h2
      obtain ⟨i, hfi, hlt, _, _, hd⟩ := find_id_present m1 inv1.table hn1
      rw [e1] at hfi
      exact ⟨e2, by rw [h2]; exact hsz, hins, i, hfi, hlt, hd⟩
  · have hop := operator_index_present inv hn
    have hfe := find_entry_present inv hn
    rw [e] at hop hfe
    refine ⟨m, n, hop, hn, e, by rw [hfe, Node.entry, e], ?_, ?_⟩
    · intro v hv
      rw [hfe] at hv
      injection hv with hv; injection hv with hv
      exact ⟨congrArg Prod.snd hv, rfl, rfl⟩
    · intro hpast
      rw [hf] at hpast; cases hpast

/-- C7, checked on the state holding key 10 for `operator[](20)`, whose
insertion rebuilds the table. -/
theorem operator_index_returns_entry_witness :
    Reachable exampleOne ∧
    ∃ m1 n, operator_index exampleOne 20 = some (m1, n) ∧ n ∈ m1.elements ∧ n.key = 20 ∧
      find_entry m1 20 = some (some (20, n.val)) ∧
      (∀ v, find_entry exampleOne 20 = some (some (20, v)) →
        n.val = v ∧ m1 = exampleOne ∧ size m1 = size exampleOne) ∧
      (find exampleOne 20 = some Iter.past →
        n.val = default ∧ size m1 = size exampleOne + 1 ∧
        insert exampleOne (20, default) = some m1 ∧
        ∃ id, find_id m1 20 = some id ∧ id < m1.data.length ∧
          m1.data[id]? = some (Iter.node n.addr)) :=
  ⟨exampleOne_reachable, operator_index_returns_entry exampleOne 20 exampleOne_reachable⟩

/-- C8: in a reachable state where `k` is present with value `v`, `erase(k)`
succeeds; the list afterwards is the list before with the one entry `(k, v)`
taken out and everything else in place; the slot `find_id(k)` was occupied
and not deleted before and is used and deleted afterwards; `cnt` and the
capacity are unchanged. -/
theorem erase_removes_entry [DecidableEq K] [Inhabited V] (m : HashMap K V) (k : K) (v : V)
    (hr : Reachable m) (hp : find_entry m k = some (some (k, v))) :
    ∃ m1 i, erase m k = some m1 ∧ find_id m k = some i ∧ i < m.data.length ∧
      (∃ l1 l2, iterate m = l1 ++ (k, v) :: l2 ∧ iterate m1 = l1 ++ l2) ∧
      m.used[i]? = some true ∧ m.deleted[i]? = some false ∧
      m1.used[i]? = some true ∧ m1.deleted[i]? = some true ∧
      m1.cnt = m.cnt ∧ m1.data.length = m.data.length := by
  have inv := reachable_inv hr
  obtain ⟨n, hn, e, hent⟩ := present_of_find_entry inv hp
  obtain ⟨i, hfi, hlt, hu, hd, _, he, _⟩ := erase_present inv hn
  rw [e] at hfi he
  refine ⟨_, i, he, hfi, hlt, ?_, hu, hd, hu, ?_, rfl, rfl⟩
  · obtain ⟨a, l1, l2, _, hpa, hsplit, hera⟩ :=
      @List.exists_of_eraseP _ (fun y => decide (y.addr = n.addr)) _ _ hn (by simp)
    have han : a = n := by
      have ha : a ∈ m.elements := by rw [hsplit]; simp
      exact addr_inj inv.table.addr_nodup ha hn (by simpa using hpa)
    subst han
    refine ⟨l1.map Node.entry, l2.map Node.entry, ?_, ?_⟩
    · simp only [iterate]
      rw [hsplit, List.map_append, List.map_cons, hent]
    · show (m.elements.eraseP fun y => decide (y.addr = a.addr)).map Node.entry = _
      rw [hera, List.map_append]
  · show (m.deleted.set i true)[i]? = some true
    exact List.getElem?_set_self (by rw [inv.table.len_deleted]; exact hlt)

/-- C8, checked on the state holding keys 10 and 20 for `erase(10)`. -/
theorem erase_removes_entry_witness :
    (Reachable exampleTwo ∧ find_entry exampleTwo 10 = some (some (10, 1))) ∧
    ∃ m1 i, erase exampleTwo 10 = some m1 ∧ find_id exampleTwo 10 = some i ∧
      i < exampleTwo.data.length ∧
      (∃ l1 l2, iterate exampleTwo = l1 ++ (10, 1) :: l2 ∧ iterate m1 = l1 ++ l2) ∧
      exampleTwo.used[i]? = some true ∧ exampleTwo.deleted[i]? = some false ∧
      m1.used[i]? = some true ∧ m1.deleted[i]? = some true ∧
      m1.cnt = exampleTwo.cnt ∧ m1.data.length = exampleTwo.data.length :=
  ⟨⟨exampleTwo_reachable, rfl⟩, erase_removes_entry exampleTwo 10 1 exampleTwo_reachable rfl⟩

/-- C9: in a reachable state where `find(k)` is `end()`, `erase(k)` returns
(without error) the state it was given: size, list, the three vectors, `cnt`
and the capacity are unchanged. -/
theorem erase_absent_noop [DecidableEq K] [Inhabited V] (m : HashMap K V) (k : K)
    (hr : Reachable m) (habs : find m k = some Iter.past) :
    ∃ m1, erase m k = some m1 ∧ m1 = m ∧ size m1 = size m ∧ m1.elements = m.elements ∧
      iterate m1 = iterate m ∧ m1.data = m.data ∧ m1.used = m.used ∧
      m1.deleted = m.deleted ∧ m1.cnt = m.cnt ∧ m1.data.length = m.data.length := by
  have inv := reachable_inv hr
  exact ⟨m, erase_absent inv (absent_of_find_past inv habs), rfl, rfl, rfl, rfl, rfl, rfl,
    rfl, rfl, rfl⟩

/-- C9, checked on the state holding keys 10 and 20 for `erase(30)`. -/
theorem erase_absent_noop_witness :
    (Reachable exampleTwo ∧ find exampleTwo 30 = some Iter.past) ∧
    ∃ m1, erase exampleTwo 30 = some m1 ∧ m1 = exampleTwo ∧ size m1 = size exampleTwo ∧
      m1.elements = exampleTwo.elements ∧ iterate m1 = iterate exampleTwo ∧
      m1.data = exampleTwo.data ∧ m1.used = exampleTwo.used ∧
      m1.deleted = exampleTwo.deleted ∧ m1.cnt = exampleTwo.cnt ∧
      m1.data.length = exampleTwo.data.length :=
  ⟨⟨exampleTwo_reachable, rfl⟩, erase_absent_noop exampleTwo 30 exampleTwo_reachable rfl⟩

/-- C10 (as amended): in a reachable state, when inserting the absent key `k`
makes `cnt * LOAD_FACTOR` exceed the capacity, the insertion succeeds and the
entries that were in the list before appear afterwards in the reverse of
their previous order: dropping the new key from the new list leaves the
reversed old list. -/
theorem rehash_reverses_old_entries [DecidableEq K] [Inhabited V] (m : HashMap K V) (k : K)
    (v : V) (hr : Reachable m) (habs : find m k = some Iter.past)
    (hre : (m.cnt + 1) * LOAD_FACTOR > m.data.length) :
    ∃ m1, insert m (k, v) = some m1 ∧
      (iterate m1).filter (fun q => decide (q.1 ≠ k)) = (iterate m).reverse ∧
      List.Sublist (iterate m).reverse (iterate m1) := by
  have inv := reachable_inv hr
  have hk := absent_of_find_past inv habs
  obtain ⟨m1, h1, _, _, _, hA, _⟩ := insert_absent inv (k, v) hk
  obtain ⟨hi, _⟩ := hA hre
  refine ⟨m1, h1, ?_, ?_⟩
  · rw [hi, List.filter_append]
    have h2 : (iterate m).reverse.filter (fun q => decide (q.1 ≠ k)) = (iterate m).reverse := by
      rw [List.filter_eq_self]
      intro q hq
      obtain ⟨n, hn, e1, _⟩ := mem_iterate.mp (List.mem_reverse.mp hq)
      simpa [← e1] using hk n hn
    rw [h2]
    simp
  · rw [hi]
    exact List.sublist_append_left _ _

/-- C10, checked on the state holding keys 10 and 20 for the absent key 30. -/
theorem rehash_reverses_old_entries_witness :
    (Reachable exampleTwo ∧ find exampleTwo 30 = some Iter.past ∧
      (exampleTwo.cnt + 1) * LOAD_FACTOR > exampleTwo.data.length) ∧
    ∃ m1, insert exampleTwo (30, 3) = some m1 ∧
      (iterate m1).filter (fun q => decide (q.1 ≠ 30)) = (iterate exampleTwo).reverse ∧
      List.Sublist (iterate exampleTwo).reverse (iterate m1) :=
  ⟨⟨exampleTwo_reachable, rfl, by decide⟩,
   rehash_reverses_old_entries exampleTwo 30 3 exampleTwo_reachable rfl (by decide)⟩

/-- C10 as stated fails: in the reachable state whose list is `(10, 1), (20, 2)`
the insertion of the absent key 30 rebuilds the table, and the new list
`(20, 2), (10, 1), (30, 3)` does not contain the old entries in their old
relative order. -/
theorem rehash_order_refuted :
    Reachable exampleTwo ∧ find exampleTwo 30 = some Iter.past ∧
    (exampleTwo.cnt + 1) * LOAD_FACTOR > exampleTwo.data.length ∧
    iterate exampleTwo = [(10, 1), (20, 2)] ∧
    (insert exampleTwo (30, 3)).map iterate = some [(20, 2), (10, 1), (30, 3)] ∧
    ¬ ∃ m1, insert exampleTwo (30, 3) = some m1 ∧
      List.Sublist (iterate exampleTwo) (iterate m1) := by
  have h : (insert exampleTwo (30, 3)).map iterate = some [(20, 2), (10, 1), (30, 3)] := rfl
  refine ⟨exampleTwo_reachable, rfl, by decide, rfl, h, ?_⟩
  rintro ⟨m1, hm, hs⟩
  rw [hm, Option.map_some'] at h
  injection h with h
  rw [h] at hs
  exact absurd hs (by decide)

theorem insert_steps [DecidableEq K] {m : HashMap K V} (inv : Inv m) (p : K × V)
    (hp : ∀ n, n ∈ m.elements → n.key ≠ p.1) :
    ∃ t ma, t < m.data.length ∧
      (∀ s, s < t → m.used[slotAt m.data.length (m.hasher p.1 % m.data.length) s]? = some true) ∧
      m.used[slotAt m.data.length (m.hasher p.1 % m.data.length) t]? = some false ∧
      insert_added m p = some ma ∧
      ma.cnt = m.cnt + 1 ∧
      ma.data = m.data.set (slotAt m.data.length (m.hasher p.1 % m.data.length) t)
        (Iter.node m.heap) ∧
      ma.used = m.used.set (slotAt m.data.length (m.hasher p.1 % m.data.length) t) true ∧
      ma.deleted = m.deleted ∧
      ma.elements = { addr := m.heap, key := p.1, val := p.2 } :: m.elements ∧
      ma.hasher = m.hasher ∧
      (¬ (m.cnt + 1) * LOAD_FACTOR > m.data.length → insert m p = some ma) ∧
      ((m.cnt + 1) * LOAD_FACTOR > m.data.length →
        ∃ m1, rebuild ma = some m1 ∧ insert m p = some m1 ∧ m1.cnt = ma.cnt ∧
          m1.data.length = m.data.length * 2 ∧ iterate m1 = (iterate ma).reverse) := by
  have hC : 0 < m.data.length := lt_of_lt_of_le (by decide) inv.cap
  obtain ⟨t, ht, hpath, hstop, hadd, _⟩ := add_spec m.hasher m.heap m.data m.used m.deleted
    m.elements inv.table hC inv.free p hp
  have hins : insert m p =
      if (m.cnt + 1) * LOAD_FACTOR > m.data.length then
        rebuild { cnt := m.cnt + 1,
                  data := m.data.set (slotAt m.data.length (m.hasher p.1 % m.data.length) t)
                    (Iter.node m.heap),
                  used := m.used.set (slotAt m.data.length (m.hasher p.1 % m.data.length) t)
                    true,
                  deleted := m.deleted,
                  elements := { addr := m.heap, key := p.1, val := p.2 } :: m.elements,
                  hasher := m.hasher, heap := m.heap + 1 }
      else
        some { cnt := m.cnt + 1,
               data := m.data.set (slotAt m.data.length (m.hasher p.1 % m.data.length) t)
                 (Iter.node m.heap),
               used := m.used.set (slotAt m.data.length (m.hasher p.1 % m.data.length) t) true,
               deleted := m.deleted,
               elements := { addr := m.heap, key := p.1, val := p.2 } :: m.elements,
               hasher := m.hasher, heap := m.heap + 1 } := by
    simp only [insert, find_absent inv hp, hadd]
    simp only [ne_eq, not_true_eq_false, if_false, List.length_set]
  refine ⟨t, { cnt := m.cnt + 1,
               data := m.data.set (slotAt m.data.length (m.hasher p.1 % m.data.length) t)
                 (Iter.node m.heap),
               used := m.used.set (slotAt m.data.length (m.hasher p.1 % m.data.length) t) true,
               deleted := m.deleted,
               elements := { addr := m.heap, key := p.1, val := p.2 } :: m.elements,
               hasher := m.hasher, heap := m.heap + 1 },
    ht, hpath, hstop, by simp only [insert_added, hadd], rfl, rfl, rfl, rfl, rfl,
    rfl, ?_, ?_⟩
  · intro hr
    rw [hins, if_neg hr]
  · intro hr
    obtain ⟨m1, h1, _, hc, _, hA, _⟩ := insert_absent inv p hp
    obtain ⟨hi, hl⟩ := hA hr
    refine ⟨m1, ?_, h1, hc, hl, ?_⟩
    · rw [← h1, hins, if_pos hr]
    · rw [hi]
      simp [iterate, Node.entry]

theorem exampleThree_eq : insert exampleTwo (30, 3) = some exampleThree := rfl

theorem exampleErased_eq : erase exampleTwo 20 = some exampleErased := rfl

theorem exampleThree_reachable : Reachable exampleThree :=
  Reachable.insert (30, 3) exampleTwo_reachable exampleThree_eq

theorem exampleErased_reachable : Reachable exampleErased :=
  Reachable.erase 20 exampleTwo_reachable exampleErased_eq

theorem find_idLoop_lt [DecidableEq K] (m : HashMap K V) (key : K) :
    ∀ (fuel h i : Nat), find_idLoop m key fuel h = some i → i < m.used.length := by
  intro fuel
  induction fuel with
  | zero => intro h i e; simp [find_idLoop] at e
  | succ f ih =>
    intro h i e
    have hlt : m.used[h]? = some false ∨ m.used[h]? = some true → h < m.used.length := by
      rintro (hu | hu) <;> exact (List.getElem?_eq_some.mp hu).1
    simp only [find_idLoop] at e
    cases hu : m.used[h]? with
    | none => simp [hu] at e
    | some b =>
      cases b with
      | false =>
        simp only [hu] at e
        injection e with e
        rw [← e]; exact hlt (Or.inl hu)
      | true =>
        simp only [hu] at e
        cases hd : m.deleted[h]? with
        | none => simp [hd] at e
        | some d =>
          cases d with
          | true =>
            simp only [hd] at e
            exact ih _ _ e
          | false =>
            simp only [hd] at e
            cases hk : get_key m h with
            | none => simp [hk] at e
            | some k1 =>
              simp only [hk] at e
              by_cases hkk : k1 = key
              · rw [if_pos hkk] at e
                injection e with e
                rw [← e]; exact hlt (Or.inr hu)
              · rw [if_neg hkk] at e
                exact ih _ _ e

theorem find_id_loop [DecidableEq K] {m : HashMap K V} {key : K} {id : Nat}
    (h : find_id m key = some id) :
    m.data.length ≠ 0 ∧
    ∃ i, find_idLoop m key m.data.length (m.hasher key % m.data.length) = some i ∧
      (id = i ∨ id = m.data.length) := by
  simp only [find_id] at h
  split at h
  · cases h
  · next hne =>
    refine ⟨hne, ?_⟩
    split at h
    · cases h
    · next i hi =>
      refine ⟨i, hi, ?_⟩
      split at h
      · cases h
      · injection h with h; exact Or.inr h.symm
      · split at h
        · cases h
        · injection h with h; exact Or.inr h.symm
        · injection h with h; exact Or.inl h.symm

theorem find_id_total [DecidableEq K] {m : HashMap K V} (inv : Inv m) (key : K) :
    ∃ id, find_id m key = some id ∧ id ≤ m.data.length := by
  by_cases hk : ∃ n, n ∈ m.elements ∧ n.key = key
  · obtain ⟨n, hn, e⟩ := hk
    obtain ⟨i, hf, hlt, _⟩ := find_id_present m inv.table hn
    exact ⟨i, by rw [← e]; exact hf, Nat.le_of_lt hlt⟩
  · push_neg at hk
    have hC : 0 < m.data.length := lt_of_lt_of_le (by decide) inv.cap
    exact ⟨_, find_id_absent m inv.table hC (exists_unused inv.free) hk, Nat.le_refl _⟩

theorem find_next_total {used : List Bool} (hfree : used.count true < used.length) {h : Nat}
    (hh : h < used.length) :
    ∃ t, t < used.length ∧ (∀ s, s < t → used[slotAt used.length h s]? = some true) ∧
      used[slotAt used.length h t]? = some false ∧
      find_next h used = some (slotAt used.length h t) ∧ slotAt used.length h t < used.length := by
  obtain ⟨t, ht, hpath, hstop⟩ := exists_first_unused used hh (exists_unused hfree)
  exact ⟨t, ht, hpath, hstop, find_nextLoop_eq used t used.length h hh ht ht hpath hstop,
    slotAt_lt hh ht⟩

/-- C17: in a reachable state with counter `n` and capacity `C`, inserting an
absent key first adds the entry and sets `cnt` to `n + 1` at capacity `C`; if
`(n + 1) * 3 > C` the result is that of `rebuild` on this state, with capacity
`2 * C` and the same `cnt`, otherwise the result is this state itself, at
capacity `C`.  `rebuild` never changes `cnt`. -/
theorem insert_counter_and_capacity [DecidableEq K] [Inhabited V] (m : HashMap K V) (k : K)
    (v : V) (hr : Reachable m) (habs : find m k = some Iter.past) :
    ∃ ma m1, insert_added m (k, v) = some ma ∧ ma.cnt = m.cnt + 1 ∧
      ma.data.length = m.data.length ∧
      insert m (k, v) = some m1 ∧ m1.cnt = m.cnt + 1 ∧
      ((m.cnt + 1) * 3 > m.data.length →
        rebuild ma = some m1 ∧ m1.data.length = 2 * m.data.length ∧ m1.cnt = ma.cnt) ∧
      (¬ (m.cnt + 1) * 3 > m.data.length → m1 = ma ∧ m1.data.length = m.data.length) ∧
      (∀ x y : HashMap K V, rebuild x = some y → y.cnt = x.cnt) := by
  have inv := reachable_inv hr
  obtain ⟨t, ma, _, _, _, hadd, hc, hd, _, _, _, _, hB, hA⟩ :=
    insert_steps inv (k, v) (absent_of_find_past inv habs)
  have hlen : ma.data.length = m.data.length := by rw [hd, List.length_set]
  have hreb : ∀ x y : HashMap K V, rebuild x = some y → y.cnt = x.cnt := by
    intro x y h
    simp only [rebuild] at h
    split at h
    · cases h
    · injection h with h; rw [← h]
  by_cases hre : (m.cnt + 1) * 3 > m.data.length
  · obtain ⟨m1, h1, h2, h3, h4, _⟩ := hA hre
    refine ⟨ma, m1, hadd, hc, hlen, h2, by rw [h3, hc], ?_, fun h => absurd hre h, hreb⟩
    intro _
    exact ⟨h1, by rw [h4, Nat.mul_comm], h3⟩
  · refine ⟨ma, ma, hadd, hc, hlen, hB hre, hc, fun h => absurd h hre, ?_, hreb⟩
    intro _
    exact ⟨rfl, hlen⟩

/-- C17, checked on the state holding keys 10 and 20 (counter 2, capacity 6)
for the absent key 30, whose insertion rebuilds the table. -/
theorem insert_counter_and_capacity_witness :
    (Reachable exampleTwo ∧ find exampleTwo 30 = some Iter.past) ∧
    ∃ ma m1, insert_added exampleTwo (30, 3) = some ma ∧ ma.cnt = exampleTwo.cnt + 1 ∧
      ma.data.length = exampleTwo.data.length ∧
      insert exampleTwo (30, 3) = some m1 ∧ m1.cnt = exampleTwo.cnt + 1 ∧
      ((exampleTwo.cnt + 1) * 3 > exampleTwo.data.length →
        rebuild ma = some m1 ∧ m1.data.length = 2 * exampleTwo.data.length ∧
        m1.cnt = ma.cnt) ∧
      (¬ (exampleTwo.cnt + 1) * 3 > exampleTwo.data.length →
        m1 = ma ∧ m1.data.length = exampleTwo.data.length) ∧
      (∀ x y : HashMap Nat Nat, rebuild x = some y → y.cnt = x.cnt) :=
  ⟨⟨exampleTwo_reachable, rfl⟩,
   insert_counter_and_capacity exampleTwo 30 3 exampleTwo_reachable rfl⟩

/-- C19: in a reachable state the capacity is at least 3, the three vectors
have the same size, the number of used slots is at most `cnt`, and
`cnt * 3` is at most the capacity; so some slot is unused, and for every key
the start slot `hasher(key) % data.size()` is below the capacity, the loop of
`find_id` stops at a slot below the capacity, `find_id` returns, and
`find_next` from the start slot returns an unused slot below the capacity;
`insert`, with the `find_next` calls of `add` and `rebuild`, returns as well. -/
theorem probing_terminates [DecidableEq K] [Inhabited V] (m : HashMap K V)
    (hr : Reachable m) :
    3 ≤ m.data.length ∧ m.used.length = m.data.length ∧ m.deleted.length = m.data.length ∧
    m.used.count true ≤ m.cnt ∧ m.cnt * 3 ≤ m.data.length ∧
    (∃ j, j < m.data.length ∧ m.used[j]? = some false) ∧
    (∀ p, ∃ m1, insert m p = some m1) ∧
    ∀ k, m.hasher k % m.data.length < m.data.length ∧
      (∃ i, find_idLoop m k m.data.length (m.hasher k % m.data.length) = some i ∧
        i < m.data.length) ∧
      (∃ id, find_id m k = some id ∧ id ≤ m.data.length) ∧
      (∃ i, find_next (m.hasher k % m.data.length) m.used = some i ∧ i < m.data.length ∧
        m.used[i]? = some false) := by
  have inv := reachable_inv hr
  have hC : 0 < m.data.length := lt_of_lt_of_le (by decide) inv.cap
  refine ⟨inv.cap, inv.table.len_used, inv.table.len_deleted, inv.used_le, inv.load, ?_, ?_, ?_⟩
  · obtain ⟨j, hj⟩ := exists_unused inv.free
    exact ⟨j, by rw [← inv.table.len_used]; exact (List.getElem?_eq_some.mp hj).1, hj⟩
  · intro p
    obtain ⟨m1, h1, _⟩ := insert_total inv p
    exact ⟨m1, h1⟩
  · intro k
    have hh : m.hasher k % m.data.length < m.data.length := Nat.mod_lt _ hC
    refine ⟨hh, ?_, find_id_total inv k, ?_⟩
    · obtain ⟨id, hid, _⟩ := find_id_total inv k
      obtain ⟨_, i, hi, _⟩ := find_id_loop hid
      exact ⟨i, hi, by rw [← inv.table.len_used]; exact find_idLoop_lt m k _ _ _ hi⟩
    · obtain ⟨t, _, _, hstop, hfn, hlt⟩ :=
        @find_next_total m.used inv.free (m.hasher k % m.data.length)
          (by rw [inv.table.len_used]; exact hh)
      rw [inv.table.len_used] at hstop hfn hlt
      exact ⟨_, hfn, hlt, hstop⟩

/-- C19, checked on the state holding keys 10 and 20. -/
theorem probing_terminates_witness :
    Reachable exampleTwo ∧
    (3 ≤ exampleTwo.data.length ∧ exampleTwo.used.length = exampleTwo.data.length ∧
    exampleTwo.deleted.length = exampleTwo.data.length ∧
    exampleTwo.used.count true ≤ exampleTwo.cnt ∧
    exampleTwo.cnt * 3 ≤ exampleTwo.data.length ∧
    (∃ j, j < exampleTwo.data.length ∧ exampleTwo.used[j]? = some false) ∧
    (∀ p, ∃ m1, insert exampleTwo p = some m1) ∧
    ∀ k, exampleTwo.hasher k % exampleTwo.data.length < exampleTwo.data.length ∧
      (∃ i, find_idLoop exampleTwo k exampleTwo.data.length
          (exampleTwo.hasher k % exampleTwo.data.length) = some i ∧
        i < exampleTwo.data.length) ∧
      (∃ id, find_id exampleTwo k = some id ∧ id ≤ exampleTwo.data.length) ∧
      (∃ i, find_next (exampleTwo.hasher k % exampleTwo.data.length) exampleTwo.used =
          some i ∧ i < exampleTwo.data.length ∧ exampleTwo.used[i]? = some false)) :=
  ⟨exampleTwo_reachable, probing_terminates exampleTwo exampleTwo_reachable⟩

/-- C20: in a reachable state with list `s`, inserting the absent pair
`(k, v)` first puts it in front of `s`; without a rebuild that is the
resulting list, and with a rebuild the resulting list is the reverse of it,
that is the reverse of `s` followed by `(k, v)`. -/
theorem insert_iteration_sequence [DecidableEq K] [Inhabited V] (m : HashMap K V) (k : K)
    (v : V) (hr : Reachable m) (habs : find m k = some Iter.past) :
    ∃ ma m1, insert_added m (k, v) = some ma ∧ iterate ma = (k, v) :: iterate m ∧
      insert m (k, v) = some m1 ∧
      (¬ (m.cnt + 1) * LOAD_FACTOR > m.data.length →
        m1 = ma ∧ iterate m1 = (k, v) :: iterate m) ∧
      ((m.cnt + 1) * LOAD_FACTOR > m.data.length →
        rebuild ma = some m1 ∧ iterate m1 = (iterate ma).reverse ∧
        iterate m1 = ((k, v) :: iterate m).reverse ∧
        iterate m1 = (iterate m).reverse ++ [(k, v)]) := by
  have inv := reachable_inv hr
  obtain ⟨t, ma, _, _, _, hadd, _, _, _, _, he, _, hB, hA⟩ :=
    insert_steps inv (k, v) (absent_of_find_past inv habs)
  have hit : iterate ma = (k, v) :: iterate m := by simp [iterate, he, Node.entry]
  by_cases hre : (m.cnt + 1) * LOAD_FACTOR > m.data.length
  · obtain ⟨m1, h1, h2, _, _, h5⟩ := hA hre
    refine ⟨ma, m1, hadd, hit, h2, fun h => absurd hre h, fun _ => ⟨h1, h5, ?_, ?_⟩⟩
    · rw [h5, hit]
    · rw [h5, hit, List.reverse_cons]
  · exact ⟨ma, ma, hadd, hit, hB hre, fun _ => ⟨rfl, hit⟩, fun h => absurd h hre⟩

/-- C20, checked on the state holding keys 10 and 20 for the absent key 30
(with a rebuild). -/
theorem insert_iteration_sequence_witness :
    (Reachable exampleTwo ∧ find exampleTwo 30 = some Iter.past) ∧
    ∃ ma m1, insert_added exampleTwo (30, 3) = some ma ∧
      iterate ma = (30, 3) :: iterate exampleTwo ∧
      insert exampleTwo (30, 3) = some m1 ∧
      (¬ (exampleTwo.cnt + 1) * LOAD_FACTOR > exampleTwo.data.length →
        m1 = ma ∧ iterate m1 = (30, 3) :: iterate exampleTwo) ∧
      ((exampleTwo.cnt + 1) * LOAD_FACTOR > exampleTwo.data.length →
        rebuild ma = some m1 ∧ iterate m1 = (iterate ma).reverse ∧
        iterate m1 = ((30, 3) :: iterate exampleTwo).reverse ∧
        iterate m1 = (iterate exampleTwo).reverse ++ [(30, 3)]) :=
  ⟨⟨exampleTwo_reachable, rfl⟩,
   insert_iteration_sequence exampleTwo 30 3 exampleTwo_reachable rfl⟩

theorem slot_move_refl (a : SlotState) : slot_move a a = true := by
  cases a <;> rfl

theorem slot_state_eq {m : HashMap K V} {i : Nat} {u d : Bool} (hu : m.used[i]? = some u)
    (hd : m.deleted[i]? = some d) : slot_state m i = some (slot_of u d) := by
  simp only [slot_state, hu, hd]

theorem slot_state_flags {m : HashMap K V} (inv : Inv m) {i : Nat} (hi : i < m.data.length) :
    ∃ u d, m.used[i]? = some u ∧ m.deleted[i]? = some d ∧ (d = true → u = true) := by
  have h1 : i < m.used.length := by rw [inv.table.len_used]; exact hi
  have h2 : i < m.deleted.length := by rw [inv.table.len_deleted]; exact hi
  refine ⟨m.used[i], m.deleted[i], List.getElem?_eq_getElem h1, List.getElem?_eq_getElem h2, ?_⟩
  intro hd
  have := inv.table.tomb i (by rw [List.getElem?_eq_getElem h2, hd])
  rw [List.getElem?_eq_getElem h1] at this
  injection this

theorem slot_step_same {m : HashMap K V} (inv : Inv m) {i : Nat} (hi : i < m.data.length) :
    ∃ a b, slot_state m i = some a ∧ slot_state m i = some b ∧ slot_move a b = true := by
  obtain ⟨u, d, hu, hd, _⟩ := slot_state_flags inv hi
  exact ⟨_, _, slot_state_eq hu hd, slot_state_eq hu hd, slot_move_refl _⟩

theorem slot_step_insert [DecidableEq K] {m m1 : HashMap K V} (inv : Inv m) {p : K × V}
    (h : insert m p = some m1) (hlen : m1.data.length = m.data.length) {i : Nat}
    (hi : i < m.data.length) :
    ∃ a b, slot_state m i = some a ∧ slot_state m1 i = some b ∧ slot_move a b = true := by
  by_cases hk : ∃ n, n ∈ m.elements ∧ n.key = p.1
  · obtain ⟨n, hn, e⟩ := hk
    have h2 := insert_present inv hn p.2
    rw [e, h] at h2
    injection h2 with h2
    rw [h2]
    exact slot_step_same inv hi
  · push_neg at hk
    obtain ⟨t, ma, _, _, hstop, _, _, _, hu1, hd1, _, _, hB, hA⟩ := insert_steps inv p hk
    by_cases hre : (m.cnt + 1) * LOAD_FACTOR > m.data.length
    · obtain ⟨m2, _, h2, _, hl, _⟩ := hA hre
      rw [h] at h2; injection h2 with h2
      rw [h2, hl] at hlen
      have := inv.cap
      omega
    · have h2 := hB hre
      rw [h] at h2; injection h2 with h2
      obtain ⟨u, d, hu, hd, hdu⟩ := slot_state_flags inv hi
      by_cases e : slotAt m.data.length (m.hasher p.1 % m.data.length) t = i
      · rw [e] at hstop hu1
        rw [hstop] at hu; injection hu with hu
        have hdf : d = false := by
          cases d with
          | false => rfl
          | true => rw [hdu rfl] at hu; cases hu
        subst hu; subst hdf
        refine ⟨_, _, slot_state_eq hstop hd, @slot_state_eq K V _ _ true false ?_ ?_, rfl⟩
        · rw [h2, hu1]
          exact List.getElem?_set_self (by rw [inv.table.len_used]; exact hi)
        · rw [h2, hd1]; exact hd
      · refine ⟨_, _, slot_state_eq hu hd, @slot_state_eq K V _ _ u d ?_ ?_,
          slot_move_refl _⟩
        · rw [h2, hu1, List.getElem?_set_ne e]; exact hu
        · rw [h2, hd1]; exact hd

theorem slot_step_erase [DecidableEq K] {m m1 : HashMap K V} (inv : Inv m) {key : K}
    (h : erase m key = some m1) :
    m1.used = m.used ∧ m1.data = m.data ∧ m1.cnt = m.cnt ∧
    (∀ i : Nat, m.deleted[i]? = some true → m1.deleted[i]? = some true) ∧
    ∀ i, i < m.data.length →
      ∃ a b, slot_state m i = some a ∧ slot_state m1 i = some b ∧ slot_move a b = true := by
  by_cases hk : ∃ n, n ∈ m.elements ∧ n.key = key
  · obtain ⟨n, hn, e⟩ := hk
    obtain ⟨j, _, hj, hu, hd, _, h2, _⟩ := erase_present inv hn
    rw [e, h] at h2
    injection h2 with h2
    subst h2
    refine ⟨rfl, rfl, rfl, ?_, ?_⟩
    · intro i hi
      show (m.deleted.set j true)[i]? = some true
      exact getElem?_set_true hi
    · intro i hi
      by_cases e1 : j = i
      · subst e1
        refine ⟨_, _, slot_state_eq hu hd, @slot_state_eq K V _ _ true true hu ?_, rfl⟩
        show (m.deleted.set j true)[j]? = some true
        exact List.getElem?_set_self (by rw [inv.table.len_deleted]; exact hj)
      · obtain ⟨u, d, hu1, hd1, _⟩ := slot_state_flags inv hi
        refine ⟨_, _, slot_state_eq hu1 hd1, @slot_state_eq K V _ _ u d hu1 ?_,
          slot_move_refl _⟩
        show (m.deleted.set j true)[i]? = some d
        rw [List.getElem?_set_ne e1]; exact hd1
  · push_neg at hk
    rw [erase_absent inv hk] at h
    injection h with h
    subst h
    exact ⟨rfl, rfl, rfl, fun _ hi => hi, fun i hi => slot_step_same inv hi⟩

theorem clear_flags [DecidableEq K] {m m1 : HashMap K V} (inv : Inv m)
    (h : clear m = some m1) :
    Inv m1 ∧ m1.used = m.used ∧ m1.data = m.data ∧ m1.cnt = m.cnt ∧ m1.elements = [] ∧
    m1.hasher = m.hasher ∧
    ∀ i : Nat, m1.deleted[i]? = m.used[i]? := by
  obtain ⟨del, h2, inv1⟩ := clear_spec inv
  rw [h] at h2
  injection h2 with h2
  subst h2
  refine ⟨inv1, rfl, rfl, rfl, rfl, rfl, ?_⟩
  intro i
  show del[i]? = m.used[i]?
  have hl1 : del.length = m.data.length := inv1.table.len_deleted
  have hl2 : m.used.length = m.data.length := inv.table.len_used
  by_cases hi : i < m.data.length
  · have h1 : i < del.length := by omega
    have h2 : i < m.used.length := by omega
    rw [List.getElem?_eq_getElem h1, List.getElem?_eq_getElem h2]
    cases hd : del[i] with
    | true =>
      have := inv1.table.tomb i (by rw [List.getElem?_eq_getElem h1, hd])
      have hu : m.used[i]? = some true := this
      rw [List.getElem?_eq_getElem h2] at hu
      rw [← hu]
    | false =>
      cases hu : m.used[i] with
      | false => rfl
      | true =>
        obtain ⟨n, hn, _⟩ := inv1.table.live i
          (by show m.used[i]? = some true; rw [List.getElem?_eq_getElem h2, hu])
          (by rw [List.getElem?_eq_getElem h1, hd])
        cases hn
  · rw [List.getElem?_eq_none (by omega), List.getElem?_eq_none (by omega)]

theorem slot_step_clear [DecidableEq K] {m m1 : HashMap K V} (inv : Inv m)
    (h : clear m = some m1) {i : Nat} (hi : i < m.data.length) :
    ∃ a b, slot_state m i = some a ∧ slot_state m1 i = some b ∧ slot_move a b = true := by
  obtain ⟨_, hu1, _, _, _, _, hd1⟩ := clear_flags inv h
  obtain ⟨u, d, hu, hd, hdu⟩ := slot_state_flags inv hi
  refine ⟨_, _, slot_state_eq hu hd, @slot_state_eq K V _ _ u u (by rw [hu1]; exact hu)
    (by rw [hd1]; exact hu), ?_⟩
  cases u <;> cases d
  · rfl
  · exact absurd (hdu rfl) (by decide)
  · rfl
  · rfl

theorem rebuildLoop_keeps (hasher : K → Nat) (C : Nat) (del : List Bool) :
    ∀ (rest : List (Node K V)) (heap : Nat) (d : List Iter) (u : List Bool) (e : List (Node K V)),
      TableInv hasher heap d u del e e → d.length = C →
      u.count true = e.length → e.length + rest.length < C →
      (rest.map Node.key).Nodup → (∀ n, n ∈ rest → ∀ x, x ∈ e → x.key ≠ n.key) →
      ∀ d1 u1 e1 heap1, rebuildLoop hasher rest heap d u e = some (d1, u1, e1, heap1) →
        (∀ i : Nat, u[i]? = some true → d1[i]? = d[i]? ∧ u1[i]? = some true) ∧
        (∀ n, n ∈ e → n ∈ e1) := by
  intro rest
  induction rest with
  | nil =>
    intro heap d u e _ _ _ _ _ _ d1 u1 e1 heap1 h
    simp only [rebuildLoop] at h
    injection h with h
    injection h with h1 h
    injection h with h2 h
    injection h with h3 h
    subst h1; subst h2; subst h3
    exact ⟨fun i hi => ⟨rfl, hi⟩, fun n hn => hn⟩
  | cons n rest ih =>
    intro heap d u e inv hd hc hlen hnd hdisj d1 u1 e1 heap1 h
    rw [List.map_cons, List.nodup_cons] at hnd
    have hulen : u.length = C := by rw [inv.len_used, hd]
    simp only [List.length_cons] at hlen
    obtain ⟨t, _, _, hstop, hadd, inv1⟩ := add_spec hasher heap d u del e inv (by omega)
      (by omega) (n.key, n.val) (fun x hx => hdisj n (List.mem_cons_self _ _) x hx)
    simp only [rebuildLoop, hadd] at h
    obtain ⟨hk, hm⟩ := ih (heap + 1) _ _ _ inv1 (by rw [List.length_set]; exact hd)
        (by rw [count_set_true hstop, hc]; simp)
        (by simp only [List.length_cons]; omega) hnd.2
        (by
          intro y hy x hx
          rcases List.mem_cons.mp hx with e0 | e0
          · subst e0
            intro e1
            exact hnd.1 (by simp only at e1; rw [e1]; exact List.mem_map_of_mem Node.key hy)
          · exact hdisj y (List.mem_cons_of_mem _ hy) x e0)
        d1 u1 e1 heap1 h
    constructor
    · intro i hi
      have hne : slotAt d.length (hasher n.key % d.length) t ≠ i := by
        intro e0
        simp only at hstop
        rw [e0, hi] at hstop; cases hstop
      obtain ⟨h1, h2⟩ := hk i (getElem?_set_true hi)
      exact ⟨by rw [h1, List.getElem?_set_ne hne], h2⟩
    · intro x hx
      exact hm x (List.mem_cons_of_mem _ hx)

theorem insert_rehash_home [DecidableEq K] {m : HashMap K V} (inv : Inv m) (p : K × V)
    (hp : ∀ n, n ∈ m.elements → n.key ≠ p.1)
    (hre : (m.cnt + 1) * LOAD_FACTOR > m.data.length) :
    ∃ m1, insert m p = some m1 ∧ m1.data.length = m.data.length * 2 ∧
      m1.used[m.hasher p.1 % m1.data.length]? = some true ∧
      m1.deleted[m.hasher p.1 % m1.data.length]? = some false ∧
      m1.data[m.hasher p.1 % m1.data.length]? = some (Iter.node (m.heap + 1)) ∧
      deref m1.elements (Iter.node (m.heap + 1)) =
        some { addr := m.heap + 1, key := p.1, val := p.2 } := by
  have hC : 0 < m.data.length := lt_of_lt_of_le (by decide) inv.cap
  have hcap := inv.cap
  have hload := inv.load
  have hsz := inv.size_le
  obtain ⟨_, ma, _, _, _, hadded, _, hd, _, _, he, hh, _, hA⟩ := insert_steps inv p hp
  have hheap : ma.heap = m.heap + 1 := by
    obtain ⟨_, _, _, _, hadd0, _⟩ := add_spec m.hasher m.heap m.data m.used m.deleted
      m.elements inv.table hC inv.free p hp
    simp only [insert_added, hadd0] at hadded
    injection hadded with hadded
    rw [← hadded]
  obtain ⟨m1, h1, h2, _, hl, _⟩ := hA hre
  obtain ⟨x1, hx1, inv1, _⟩ := insert_absent inv p hp
  rw [h2] at hx1; injection hx1 with hx1; subst hx1
  have hlen : ma.data.length = m.data.length := by rw [hd, List.length_set]
  simp only [rebuild, he, hh, hlen] at h1
  split at h1
  · cases h1
  · next d1 u1 e1 heap1 hloop =>
    injection h1 with h1
    subst h1
    have inva := inv.table.keys_nodup
    have hC2 : 0 < m.data.length * 2 := by omega
    have h0 := @tableInv_replicate K V m.hasher ma.heap (m.data.length * 2)
    obtain ⟨t, ht, hpath, hstop, hadd, inv2⟩ := add_spec m.hasher ma.heap
      (List.replicate (m.data.length * 2) Iter.null) (List.replicate (m.data.length * 2) false)
      (List.replicate (m.data.length * 2) false) [] h0 (by simpa using hC2)
      (by simp [List.count_replicate]; omega) (p.1, p.2) (by intro _ hn; cases hn)
    simp only [List.length_replicate] at ht hpath hstop hadd inv2
    have ht0 : t = 0 := by
      rcases Nat.eq_zero_or_pos t with e | e
      · exact e
      · have := hpath 0 e
        rw [List.getElem?_replicate] at this
        split at this <;> cases this
    subst ht0
    have hh2 : m.hasher p.1 % (m.data.length * 2) < m.data.length * 2 := Nat.mod_lt _ hC2
    rw [slotAt_zero hh2] at hstop hadd inv2
    simp only [rebuildLoop, hadd] at hloop
    obtain ⟨hk, hm⟩ := rebuildLoop_keeps m.hasher (m.data.length * 2)
      (List.replicate (m.data.length * 2) false) m.elements (ma.heap + 1) _ _ _ inv2
      (by simp) (by rw [count_set_true hstop]; simp [List.count_replicate])
      (by simp only [List.length_cons, List.length_nil]; omega) inva
      (by
        intro y hy x hx
        rcases List.mem_cons.mp hx with e0 | e0
        · subst e0; intro e1; exact hp y hy e1.symm
        · cases e0)
      d1 u1 e1 heap1 hloop
    have hset : ((List.replicate (m.data.length * 2) false).set
        (m.hasher p.1 % (m.data.length * 2)) true)[m.hasher p.1 % (m.data.length * 2)]? =
        some true := List.getElem?_set_self (by simpa using hh2)
    obtain ⟨hk1, hk2⟩ := hk _ hset
    refine ⟨_, h2, hl, ?_, ?_, ?_, ?_⟩
    · show u1[m.hasher p.1 % d1.length]? = some true
      rw [show d1.length = m.data.length * 2 from hl]; exact hk2
    · show (List.replicate (m.data.length * 2) false)[m.hasher p.1 % d1.length]? = some false
      rw [show d1.length = m.data.length * 2 from hl, List.getElem?_replicate, if_pos hh2]
    · show d1[m.hasher p.1 % d1.length]? = _
      rw [show d1.length = m.data.length * 2 from hl, hk1,
        List.getElem?_set_self (by simpa using hh2), hheap]
    · have hmem := hm _ (List.mem_cons_self _ _)
      have := deref_of_mem inv1.table.addr_nodup hmem
      rw [← hheap]
      exact this

theorem slot_state_occupied {m : HashMap K V} {i : Nat} :
    slot_state m i = some SlotState.occupied ↔
      m.used[i]? = some true ∧ m.deleted[i]? = some false := by
  simp only [slot_state]
  cases hu : m.used[i]? with
  | none => simp
  | some u =>
    cases hd : m.deleted[i]? with
    | none => simp
    | some d => cases u <;> cases d <;> simp [slot_of]

theorem slot_state_tombstone {m : HashMap K V} {i : Nat} :
    slot_state m i = some SlotState.tombstone ↔
      m.used[i]? = some true ∧ m.deleted[i]? = some true := by
  simp only [slot_state]
  cases hu : m.used[i]? with
  | none => simp
  | some u =>
    cases hd : m.deleted[i]? with
    | none => simp
    | some d => cases u <;> cases d <;> simp [slot_of]

theorem slot_state_empty {m : HashMap K V} (inv : Inv m) {i : Nat} :
    slot_state m i = some SlotState.empty ↔ m.used[i]? = some false := by
  constructor
  · intro h
    simp only [slot_state] at h
    cases hu : m.used[i]? with
    | none => simp [hu] at h
    | some u =>
      cases hd : m.deleted[i]? with
      | none => simp [hu, hd] at h
      | some d =>
        cases u
        · rfl
        · cases d <;> simp [hu, hd, slot_of] at h
  · intro h
    have hi : i < m.data.length := by
      rw [← inv.table.len_used]; exact (List.getElem?_eq_some.mp h).1
    obtain ⟨u, d, hu, hd, _⟩ := slot_state_flags inv hi
    rw [h] at hu; injection hu with hu
    rw [slot_state_eq h hd]
    rfl

theorem probeInv_of_inv {m : HashMap K V} (inv : Inv m) : ProbeInv m := by
  constructor
  · intro n hn
    obtain ⟨t, ht, hp, hu, hd, hdat⟩ := inv.table.home n hn
    exact ⟨t, ht, hp, slot_state_occupied.mpr ⟨hu, hd⟩, hdat, get_key_live m inv.table hn hdat⟩
  · intro i hi
    obtain ⟨hu, hd⟩ := slot_state_occupied.mp hi
    obtain ⟨n, hn, hdat⟩ := inv.table.live i hu hd
    exact ⟨n, hn, hdat, deref_of_mem inv.table.addr_nodup hn⟩

theorem clearLoop_prefix [DecidableEq K] :
    ∀ (pre post : List (Node K V)) (m : HashMap K V),
      TableInv m.hasher m.heap m.data m.used m.deleted m.elements (pre ++ post) →
      ∃ del, clearLoop m pre = some { m with deleted := del } ∧
        TableInv m.hasher m.heap m.data m.used del m.elements post := by
  intro pre
  induction pre with
  | nil =>
    intro post m inv
    exact ⟨m.deleted, rfl, inv⟩
  | cons n rest ih =>
    intro post m inv
    rw [List.cons_append] at inv
    obtain ⟨i, hf, hlt, hu, hd, hdat⟩ := find_id_present m inv (List.mem_cons_self _ _)
    have hnd : ((n :: (rest ++ post)).map Node.addr).Nodup :=
      inv.addr_nodup.sublist (inv.sub.map _)
    rw [List.map_cons, List.nodup_cons] at hnd
    have t1 := tableInv_tomb inv (List.mem_cons_self _ _) hu hd hdat
      (List.sublist_cons_self n (rest ++ post))
      (fun x hx e => hnd.1 (e ▸ List.mem_map_of_mem Node.addr hx))
      (fun x hx hne => by
        rcases List.mem_cons.mp hx with e | e
        · exact absurd e hne
        · exact e)
    obtain ⟨del, hloop, t2⟩ := ih post { m with deleted := m.deleted.set i true } t1
    refine ⟨del, ?_, t2⟩
    have hdl : i < m.deleted.length := by rw [inv.len_deleted]; exact hlt
    simp only [clearLoop, hf, hdl, if_true]
    exact hloop

/-- C14: in a reachable state `clear()` succeeds; afterwards the size is 0,
`find` is `end()` for every key, every slot that was occupied or a tombstone
is a tombstone, every empty slot is still empty, and the capacity and `cnt`
are unchanged.  When the loop of `clear` reaches a node of the list, its
`find_id` returns a slot below the capacity. -/
theorem clear_tombstones_all [DecidableEq K] [Inhabited V] (m : HashMap K V)
    (hr : Reachable m) :
    ∃ m1, clear m = some m1 ∧ size m1 = 0 ∧ (∀ k, find m1 k = some Iter.past) ∧
      (∀ i, slot_state m i = some SlotState.occupied →
        slot_state m1 i = some SlotState.tombstone) ∧
      (∀ i, slot_state m i = some SlotState.tombstone →
        slot_state m1 i = some SlotState.tombstone) ∧
      (∀ i, slot_state m i = some SlotState.empty → slot_state m1 i = some SlotState.empty) ∧
      m1.data.length = m.data.length ∧ m1.cnt = m.cnt ∧
      (∀ pre n post, m.elements = pre ++ n :: post →
        ∃ mid, clearLoop m pre = some mid ∧
          ∃ i, find_id mid n.key = some i ∧ i < mid.data.length) := by
  have inv := reachable_inv hr
  obtain ⟨del, h1, _⟩ := clear_spec inv
  obtain ⟨inv1, hu, hd, hc, he, _, hdel⟩ := clear_flags inv h1
  refine ⟨_, h1, ?_, ?_, ?_, ?_, ?_, ?_, hc, ?_⟩
  · rfl
  · intro k
    apply find_absent inv1
    intro n hn
    rw [he] at hn; cases hn
  · intro i hi
    obtain ⟨h2, _⟩ := slot_state_occupied.mp hi
    exact slot_state_tombstone.mpr ⟨by rw [hu]; exact h2, by rw [hdel]; exact h2⟩
  · intro i hi
    obtain ⟨h2, _⟩ := slot_state_tombstone.mp hi
    exact slot_state_tombstone.mpr ⟨by rw [hu]; exact h2, by rw [hdel]; exact h2⟩
  · intro i hi
    have h2 := (slot_state_empty inv).mp hi
    exact (slot_state_empty inv1).mpr (by rw [hu]; exact h2)
  · rw [hd]
  · intro pre n post hsplit
    have t0 := inv.table
    obtain ⟨del1, hloop, t1⟩ := clearLoop_prefix pre (n :: post) m (by rw [← hsplit]; exact t0)
    obtain ⟨i, hf, hlt, _⟩ := find_id_present { m with deleted := del1 } t1
      (List.mem_cons_self _ _)
    exact ⟨_, hloop, i, hf, hlt⟩

/-- C14, checked on the state holding key 10 and a tombstone left by `erase(20)`. -/
theorem clear_tombstones_all_witness :
    Reachable exampleErased ∧
    ∃ m1, clear exampleErased = some m1 ∧ size m1 = 0 ∧ (∀ k, find m1 k = some Iter.past) ∧
      (∀ i, slot_state exampleErased i = some SlotState.occupied →
        slot_state m1 i = some SlotState.tombstone) ∧
      (∀ i, slot_state exampleErased i = some SlotState.tombstone →
        slot_state m1 i = some SlotState.tombstone) ∧
      (∀ i, slot_state exampleErased i = some SlotState.empty →
        slot_state m1 i = some SlotState.empty) ∧
      m1.data.length = exampleErased.data.length ∧ m1.cnt = exampleErased.cnt ∧
      (∀ pre n post, exampleErased.elements = pre ++ n :: post →
        ∃ mid, clearLoop exampleErased pre = some mid ∧
          ∃ i, find_id mid n.key = some i ∧ i < mid.data.length) :=
  ⟨exampleErased_reachable, clear_tombstones_all exampleErased exampleErased_reachable⟩

theorem operator_index_cases [DecidableEq K] [Inhabited V] {m m1 : HashMap K V}
    {n : Node K V} (inv : Inv m) {key : K} (h : operator_index m key = some (m1, n)) :
    m1 = m ∨ insert m (key, default) = some m1 := by
  by_cases hk : ∃ x, x ∈ m.elements ∧ x.key = key
  · obtain ⟨x, hx, e⟩ := hk
    have h2 := operator_index_present inv hx
    rw [e, h] at h2
    injection h2 with h2; injection h2 with h2 _
    exact Or.inl h2
  · push_neg at hk
    obtain ⟨m2, n2, hins, h2, _⟩ := operator_index_absent inv hk
    rw [h] at h2
    injection h2 with h2; injection h2 with h2 _
    exact Or.inr (by rw [h2]; exact hins)

theorem operator_assign_inv [DecidableEq K] (self other : HashMap K V) :
    ∃ m1, operator_assign self other = some m1 ∧ Inv m1 ∧ m1.hasher = other.hasher := by
  obtain ⟨m2, h2, inv2, hh⟩ :=
    insertAll_total (iterate other) _ (inv_fresh other.hasher self.heap)
  exact ⟨m2, h2, inv2, hh⟩

/-- C16: every reachable state satisfies the probe-table invariant, and so
does every state that `insert`, `erase`, `clear`, `operator[]`, the `rebuild`
inside `insert`, or a copy-assignment (as target or as source) produces from
it. -/
theorem probe_invariant [DecidableEq K] [Inhabited V] (m : HashMap K V) (hr : Reachable m) :
    ProbeInv m ∧
    (∀ p m1, insert m p = some m1 → ProbeInv m1) ∧
    (∀ key m1, erase m key = some m1 → ProbeInv m1) ∧
    (∀ m1, clear m = some m1 → ProbeInv m1) ∧
    (∀ key m1 n, operator_index m key = some (m1, n) → ProbeInv m1) ∧
    (∀ p ma m1, insert_added m p = some ma → rebuild ma = some m1 →
      insert m p = some m1 → ProbeInv m1) ∧
    (∀ o m1, operator_assign m o = some m1 → ProbeInv m1) ∧
    (∀ o m1, operator_assign o m = some m1 → ProbeInv m1) := by
  refine ⟨probeInv_of_inv (reachable_inv hr), ?_, ?_, ?_, ?_, ?_, ?_, ?_⟩
  · intro p m1 h
    exact probeInv_of_inv (reachable_inv (Reachable.insert p hr h))
  · intro key m1 h
    exact probeInv_of_inv (reachable_inv (Reachable.erase key hr h))
  · intro m1 h
    exact probeInv_of_inv (reachable_inv (Reachable.clear hr h))
  · intro key m1 n h
    exact probeInv_of_inv (reachable_inv (Reachable.operator_index key hr h))
  · intro p ma m1 _ _ h
    exact probeInv_of_inv (reachable_inv (Reachable.insert p hr h))
  · intro o m1 h
    obtain ⟨m2, h2, inv2, _⟩ := operator_assign_inv m o
    rw [h] at h2; injection h2 with h2; rw [h2]
    exact probeInv_of_inv inv2
  · intro o m1 h
    obtain ⟨m2, h2, inv2, _⟩ := operator_assign_inv o m
    rw [h] at h2; injection h2 with h2; rw [h2]
    exact probeInv_of_inv inv2

/-- C16, checked on the state holding keys 10 and 20. -/
theorem probe_invariant_witness :
    Reachable exampleTwo ∧
    (ProbeInv exampleTwo ∧
    (∀ p m1, insert exampleTwo p = some m1 → ProbeInv m1) ∧
    (∀ key m1, erase exampleTwo key = some m1 → ProbeInv m1) ∧
    (∀ m1, clear exampleTwo = some m1 → ProbeInv m1) ∧
    (∀ key m1 n, operator_index exampleTwo key = some (m1, n) → ProbeInv m1) ∧
    (∀ p ma m1, insert_added exampleTwo p = some ma → rebuild ma = some m1 →
      insert exampleTwo p = some m1 → ProbeInv m1) ∧
    (∀ o m1, operator_assign exampleTwo o = some m1 → ProbeInv m1) ∧
    (∀ o m1, operator_assign o exampleTwo = some m1 → ProbeInv m1)) :=
  ⟨exampleTwo_reachable, probe_invariant exampleTwo exampleTwo_reachable⟩

/-- C18: from a reachable state, `insert` and `operator[]` that keep the
capacity, `erase` and `clear` move every slot only along empty, occupied,
tombstone (or leave it); `erase` and `clear` leave `used` and `data` alone
and never reset a `deleted` flag.  For an absent key, `add` inside `insert`
skips the occupied and tombstone slots met from `hasher(k) % data.size()` on,
stores the new node in the first empty slot, and changes no other slot; the
result of `insert` is that state, or `rebuild` of it when the load-factor
test fires, and then the node sits in slot `hasher(k) % data.size()` of the
new table, the first slot of its probe there. -/
theorem slot_life_cycle [DecidableEq K] [Inhabited V] (m : HashMap K V) (hr : Reachable m) :
    (∀ p m1, insert m p = some m1 → m1.data.length = m.data.length →
      ∀ i, i < m.data.length →
        ∃ a b, slot_state m i = some a ∧ slot_state m1 i = some b ∧ slot_move a b = true) ∧
    (∀ key m1 n, operator_index m key = some (m1, n) → m1.data.length = m.data.length →
      ∀ i, i < m.data.length →
        ∃ a b, slot_state m i = some a ∧ slot_state m1 i = some b ∧ slot_move a b = true) ∧
    (∀ key m1, erase m key = some m1 →
      m1.used = m.used ∧ m1.data = m.data ∧
      (∀ i : Nat, m.deleted[i]? = some true → m1.deleted[i]? = some true) ∧
      ∀ i, i < m.data.length →
        ∃ a b, slot_state m i = some a ∧ slot_state m1 i = some b ∧ slot_move a b = true) ∧
    (∀ m1, clear m = some m1 →
      m1.used = m.used ∧ m1.data = m.data ∧
      (∀ i : Nat, m.deleted[i]? = some true → m1.deleted[i]? = some true) ∧
      ∀ i, i < m.data.length →
        ∃ a b, slot_state m i = some a ∧ slot_state m1 i = some b ∧ slot_move a b = true) ∧
    (∀ k v, find m k = some Iter.past →
      ∃ t ma, t < m.data.length ∧
        (∀ s, s < t →
          slot_state m (slotAt m.data.length (m.hasher k % m.data.length) s) =
            some SlotState.occupied ∨
          slot_state m (slotAt m.data.length (m.hasher k % m.data.length) s) =
            some SlotState.tombstone) ∧
        slot_state m (slotAt m.data.length (m.hasher k % m.data.length) t) =
          some SlotState.empty ∧
        insert_added m (k, v) = some ma ∧
        slot_state ma (slotAt m.data.length (m.hasher k % m.data.length) t) =
          some SlotState.occupied ∧
        ma.data[slotAt m.data.length (m.hasher k % m.data.length) t]? =
          some (Iter.node m.heap) ∧
        deref ma.elements (Iter.node m.heap) = some { addr := m.heap, key := k, val := v } ∧
        (∀ j, j ≠ slotAt m.data.length (m.hasher k % m.data.length) t →
          slot_state ma j = slot_state m j ∧ ma.data[j]? = m.data[j]?) ∧
        (¬ (m.cnt + 1) * LOAD_FACTOR > m.data.length → insert m (k, v) = some ma) ∧
        ((m.cnt + 1) * LOAD_FACTOR > m.data.length →
          insert m (k, v) = rebuild ma ∧
          ∃ m1, insert m (k, v) = some m1 ∧
            slot_state m1 (m.hasher k % m1.data.length) = some SlotState.occupied ∧
            m1.data[m.hasher k % m1.data.length]? = some (Iter.node (m.heap + 1)) ∧
            deref m1.elements (Iter.node (m.heap + 1)) =
              some { addr := m.heap + 1, key := k, val := v })) := by
  have inv := reachable_inv hr
  refine ⟨?_, ?_, ?_, ?_, ?_⟩
  · intro p m1 h hlen i hi
    exact slot_step_insert inv h hlen hi
  · intro key m1 n h hlen i hi
    rcases operator_index_cases inv h with e | e
    · rw [e]; exact slot_step_same inv hi
    · exact slot_step_insert inv e hlen hi
  · intro key m1 h
    obtain ⟨h1, h2, _, h3, h4⟩ := slot_step_erase inv h
    exact ⟨h1, h2, h3, h4⟩
  · intro m1 h
    obtain ⟨_, h1, h2, _, _, _, h3⟩ := clear_flags inv h
    refine ⟨h1, h2, ?_, fun i hi => slot_step_clear inv h hi⟩
    intro i hi
    rw [h3]
    exact inv.table.tomb i hi
  · intro k v habs
    obtain ⟨t, ma, ht, hpath, hstop, hadd, _, hd, hu, hdel, he, _, hB, hA⟩ :=
      insert_steps inv (k, v) (absent_of_find_past inv habs)
    simp only at hpath hstop hd hu he
    have hC : 0 < m.data.length := lt_of_lt_of_le (by decide) inv.cap
    have hh : m.hasher k % m.data.length < m.data.length := Nat.mod_lt _ hC
    have hlt := slotAt_lt hh ht
    have hempty := (slot_state_empty inv).mpr hstop
    obtain ⟨u0, d0, hu0, hd0, hdu0⟩ := slot_state_flags inv hlt
    have hd0f : m.deleted[slotAt m.data.length (m.hasher k % m.data.length) t]? =
        some false := by
      cases d0 with
      | false => exact hd0
      | true => rw [hstop] at hu0; injection hu0 with hu0; rw [hdu0 rfl] at hu0; cases hu0
    refine ⟨t, ma, ht, ?_, hempty, hadd, ?_, ?_, ?_, ?_, hB, ?_⟩
    · intro s hs
      obtain ⟨u, d, hu1, hd1, _⟩ := slot_state_flags inv (slotAt_lt hh (lt_trans hs ht))
      cases d with
      | false => exact Or.inl (slot_state_occupied.mpr ⟨hpath s hs, hd1⟩)
      | true => exact Or.inr (slot_state_tombstone.mpr ⟨hpath s hs, hd1⟩)
    · apply slot_state_occupied.mpr
      refine ⟨?_, by rw [hdel]; exact hd0f⟩
      rw [hu]
      exact List.getElem?_set_self (by rw [inv.table.len_used]; exact hlt)
    · rw [hd]
      exact List.getElem?_set_self hlt
    · rw [he]
      simp [deref]
    · intro j hj
      constructor
      · simp only [slot_state, hu, hdel, List.getElem?_set_ne (Ne.symm hj)]
      · rw [hd, List.getElem?_set_ne (Ne.symm hj)]
    · intro hre
      obtain ⟨m1, h1, h2, _⟩ := hA hre
      refine ⟨by rw [h1, h2], ?_⟩
      obtain ⟨m2, g1, _, g3, g4, g5, g6⟩ :=
        insert_rehash_home inv (k, v) (absent_of_find_past inv habs) hre
      exact ⟨m2, g1, slot_state_occupied.mpr ⟨g3, g4⟩, g5, g6⟩

/-- C18, checked on the state holding keys 20, 10, 30 (counter 3, capacity 12), where
an insertion keeps the capacity. -/
theorem slot_life_cycle_witness :
    Reachable exampleThree ∧
    ((∀ p m1, insert exampleThree p = some m1 → m1.data.length = exampleThree.data.length →
      ∀ i, i < exampleThree.data.length →
        ∃ a b, slot_state exampleThree i = some a ∧ slot_state m1 i = some b ∧
          slot_move a b = true) ∧
    (∀ key m1 n, operator_index exampleThree key = some (m1, n) →
      m1.data.length = exampleThree.data.length →
      ∀ i, i < exampleThree.data.length →
        ∃ a b, slot_state exampleThree i = some a ∧ slot_state m1 i = some b ∧
          slot_move a b = true) ∧
    (∀ key m1, erase exampleThree key = some m1 →
      m1.used = exampleThree.used ∧ m1.data = exampleThree.data ∧
      (∀ i : Nat, exampleThree.deleted[i]? = some true → m1.deleted[i]? = some true) ∧
      ∀ i, i < exampleThree.data.length →
        ∃ a b, slot_state exampleThree i = some a ∧ slot_state m1 i = some b ∧
          slot_move a b = true) ∧
    (∀ m1, clear exampleThree = some m1 →
      m1.used = exampleThree.used ∧ m1.data = exampleThree.data ∧
      (∀ i : Nat, exampleThree.deleted[i]? = some true → m1.deleted[i]? = some true) ∧
      ∀ i, i < exampleThree.data.length →
        ∃ a b, slot_state exampleThree i = some a ∧ slot_state m1 i = some b ∧
          slot_move a b = true) ∧
    (∀ k v, find exampleThree k = some Iter.past →
      ∃ t ma, t < exampleThree.data.length ∧
        (∀ s, s < t →
          slot_state exampleThree
              (slotAt exampleThree.data.length (exampleThree.hasher k % exampleThree.data.length) s) =
            some SlotState.occupied ∨
          slot_state exampleThree
              (slotAt exampleThree.data.length (exampleThree.hasher k % exampleThree.data.length) s) =
            some SlotState.tombstone) ∧
        slot_state exampleThree
            (slotAt exampleThree.data.length (exampleThree.hasher k % exampleThree.data.length) t) =
          some SlotState.empty ∧
        insert_added exampleThree (k, v) = some ma ∧
        slot_state ma
            (slotAt exampleThree.data.length (exampleThree.hasher k % exampleThree.data.length) t) =
          some SlotState.occupied ∧
        ma.data[slotAt exampleThree.data.length
            (exampleThree.hasher k % exampleThree.data.length) t]? =
          some (Iter.node exampleThree.heap) ∧
        deref ma.elements (Iter.node exampleThree.heap) =
          some { addr := exampleThree.heap, key := k, val := v } ∧
        (∀ j, j ≠ slotAt exampleThree.data.length
            (exampleThree.hasher k % exampleThree.data.length) t →
          slot_state ma j = slot_state exampleThree j ∧ ma.data[j]? = exampleThree.data[j]?) ∧
        (¬ (exampleThree.cnt + 1) * LOAD_FACTOR > exampleThree.data.length →
          insert exampleThree (k, v) = some ma) ∧
        ((exampleThree.cnt + 1) * LOAD_FACTOR > exampleThree.data.length →
          insert exampleThree (k, v) = rebuild ma ∧
          ∃ m1, insert exampleThree (k, v) = some m1 ∧
            slot_state m1 (exampleThree.hasher k % m1.data.length) =
              some SlotState.occupied ∧
            m1.data[exampleThree.hasher k % m1.data.length]? =
              some (Iter.node (exampleThree.heap + 1)) ∧
            deref m1.elements (Iter.node (exampleThree.heap + 1)) =
              some { addr := exampleThree.heap + 1, key := k, val := v }))) :=
  ⟨exampleThree_reachable, slot_life_cycle exampleThree exampleThree_reachable⟩

theorem insertAll_distinct_size [DecidableEq K] :
    ∀ (l : List (K × V)) (m : HashMap K V), Inv m → (l.map Prod.fst).Nodup →
      (∀ p, p ∈ l → ∀ n, n ∈ m.elements → n.key ≠ p.1) →
      ∃ m1, insertAll m l = some m1 ∧ Inv m1 ∧ m1.hasher = m.hasher ∧
        (∀ q, q ∈ iterate m1 ↔ q ∈ l ∨ q ∈ iterate m) ∧ size m1 = size m + l.length := by
  intro l
  induction l with
  | nil =>
    intro m inv _ _
    exact ⟨m, rfl, inv, rfl, fun q => by simp, rfl⟩
  | cons p rest ih =>
    intro m inv hnd hdisj
    rw [List.map_cons, List.nodup_cons] at hnd
    obtain ⟨m1, h1, inv1, hmem, hsz⟩ :=
      insert_absent_content inv p (hdisj p (List.mem_cons_self _ _))
    obtain ⟨m1b, h1b, _, _, hh1, _⟩ := insert_absent inv p (hdisj p (List.mem_cons_self _ _))
    rw [h1] at h1b; injection h1b with h1b
    obtain ⟨m2, h2, inv2, hh2, hmem2, hsz2⟩ := ih m1 inv1 hnd.2 (by
      intro p1 hp1 n hn e
      have hq : (n.key, n.val) ∈ iterate m1 := mem_iterate.mpr ⟨n, hn, rfl, rfl⟩
      rcases (hmem _).mp hq with e1 | e1
      · apply hnd.1
        have : p.1 = p1.1 := by rw [← e1]; exact e
        rw [this]
        exact List.mem_map_of_mem Prod.fst hp1
      · obtain ⟨x, hx, ex, _⟩ := mem_iterate.mp e1
        exact hdisj p1 (List.mem_cons_of_mem _ hp1) x hx (by rw [ex]; exact e))
    refine ⟨m2, by simp only [insertAll, h1]; exact h2, inv2, by rw [hh2, h1b, hh1], ?_, ?_⟩
    · intro q
      rw [hmem2, hmem, List.mem_cons]
      constructor
      · rintro (h | h | h)
        · exact Or.inl (Or.inr h)
        · exact Or.inl (Or.inl h)
        · exact Or.inr h
      · rintro ((h | h) | h)
        · exact Or.inr (Or.inl h)
        · exact Or.inl h
        · exact Or.inr (Or.inr h)
    · rw [hsz2, hsz, List.length_cons]; omega

theorem lookup_cons_eq [DecidableEq K] (k : K) (p : K × V) (rest : List (K × V)) :
    List.lookup k (p :: rest) = if k = p.1 then some p.2 else List.lookup k rest := by
  obtain ⟨a, b⟩ := p
  rw [List.lookup_cons]
  by_cases h : k = a
  · simp [h]
  · have hb : (k == a) = false := by simpa using h
    simp only [hb]
    rw [if_neg h]

theorem lookup_isSome_iff [DecidableEq K] (k : K) (l : List (K × V)) :
    (∃ v, List.lookup k l = some v) ↔ k ∈ l.map Prod.fst := by
  induction l with
  | nil => simp
  | cons p rest ih =>
    rw [lookup_cons_eq, List.map_cons, List.mem_cons]
    by_cases h : k = p.1
    · simp [h]
    · rw [if_neg h, ih]
      simp [h]

theorem insertAll_lookup [DecidableEq K] :
    ∀ (l : List (K × V)) (m : HashMap K V), Inv m →
      ∃ m1, insertAll m l = some m1 ∧ Inv m1 ∧
        ∀ q : K × V, q ∈ iterate m1 ↔
          q ∈ iterate m ∨ (q.1 ∉ (iterate m).map Prod.fst ∧ List.lookup q.1 l = some q.2) := by
  intro l
  induction l with
  | nil =>
    intro m inv
    exact ⟨m, rfl, inv, fun q => by simp⟩
  | cons p rest ih =>
    intro m inv
    by_cases hk : ∃ n, n ∈ m.elements ∧ n.key = p.1
    · obtain ⟨n, hn, e⟩ := hk
      have h1 := insert_present inv hn p.2
      rw [e] at h1
      obtain ⟨m2, h2, inv2, hmem2⟩ := ih m inv
      refine ⟨m2, by simp only [insertAll, h1]; exact h2, inv2, ?_⟩
      intro q
      rw [hmem2, lookup_cons_eq]
      have hpk : p.1 ∈ (iterate m).map Prod.fst := by
        rw [keys_iterate, ← e]; exact List.mem_map_of_mem Node.key hn
      constructor
      · rintro (h | ⟨h3, h4⟩)
        · exact Or.inl h
        · refine Or.inr ⟨h3, ?_⟩
          rw [if_neg (fun e1 : q.1 = p.1 => h3 (by rw [e1]; exact hpk))]; exact h4
      · rintro (h | ⟨h3, h4⟩)
        · exact Or.inl h
        · refine Or.inr ⟨h3, ?_⟩
          rw [if_neg (fun e1 : q.1 = p.1 => h3 (by rw [e1]; exact hpk))] at h4; exact h4
    · push_neg at hk
      obtain ⟨m1, h1, inv1, hmem, _⟩ := insert_absent_content inv p hk
      obtain ⟨m2, h2, inv2, hmem2⟩ := ih m1 inv1
      refine ⟨m2, by simp only [insertAll, h1]; exact h2, inv2, ?_⟩
      have hkeys : ∀ k, k ∈ (iterate m1).map Prod.fst ↔ k = p.1 ∨ k ∈ (iterate m).map Prod.fst := by
        intro k
        simp only [List.mem_map, hmem]
        constructor
        · rintro ⟨q, hq | hq, e⟩
          · exact Or.inl (by rw [← e, hq])
          · exact Or.inr ⟨q, hq, e⟩
        · rintro (e | ⟨q, hq, e⟩)
          · exact ⟨p, Or.inl rfl, e.symm⟩
          · exact ⟨q, Or.inr hq, e⟩
      have hpk : p.1 ∉ (iterate m).map Prod.fst := absent_iff.mp hk
      intro q
      rw [hmem2, hmem, hkeys, lookup_cons_eq]
      constructor
      · rintro ((h | h) | ⟨h3, h4⟩)
        · refine Or.inr ⟨by rw [h]; exact hpk, ?_⟩
          rw [h, if_pos rfl]
        · exact Or.inl h
        · push_neg at h3
          exact Or.inr ⟨h3.2, by rw [if_neg h3.1]; exact h4⟩
      · rintro (h | ⟨h3, h4⟩)
        · exact Or.inl (Or.inr h)
        · by_cases e : q.1 = p.1
          · rw [if_pos e] at h4
            injection h4 with h4
            exact Or.inl (Or.inl (Prod.ext e h4.symm))
          · rw [if_neg e] at h4
            exact Or.inr ⟨by push_neg; exact ⟨e, h3⟩, h4⟩

theorem three_inserts_from [DecidableEq K] {m : HashMap K V} (inv : Inv m) (hc : m.cnt = 0)
    (hl : m.data.length = 3) (he : m.elements = []) (a b c : K) (va vb vc : V)
    (hab : a ≠ b) (hac : a ≠ c) (hbc : b ≠ c) :
    ∃ m3, insertAll m [(a, va), (b, vb), (c, vc)] = some m3 ∧
      iterate m3 = [(b, vb), (a, va), (c, vc)] ∧ Inv m3 ∧ m3.hasher = m.hasher := by
  obtain ⟨m1, h1, inv1, c1, hh1, _, hB1⟩ :=
    insert_absent inv (a, va) (by intro n hn; rw [he] at hn; cases hn)
  obtain ⟨e1, l1, _⟩ := hB1 (by rw [hc, hl]; simp [LOAD_FACTOR])
  have i1 : iterate m1 = [(a, va)] := by simp [iterate, e1, Node.entry, he]
  obtain ⟨m2, h2, inv2, c2, hh2, hA2, _⟩ := insert_absent inv1 (b, vb)
    (absent_iff.mpr (by rw [i1]; simpa using hab.symm))
  obtain ⟨i2, l2⟩ := hA2 (by rw [c1, l1, hc, hl]; simp [LOAD_FACTOR])
  rw [i1] at i2
  obtain ⟨m3, h3, inv3, c3, hh3, hA3, _⟩ := insert_absent inv2 (c, vc)
    (absent_iff.mpr (by rw [i2]; simpa using ⟨hac.symm, hbc.symm⟩))
  obtain ⟨i3, _⟩ := hA3 (by rw [c2, l2, c1, l1, hc, hl]; simp [LOAD_FACTOR])
  rw [i2] at i3
  exact ⟨m3, by simp only [insertAll, h1, h2, h3], by rw [i3]; rfl, inv3,
    by rw [hh3, hh2, hh1]⟩

theorem find_entry_none_iff [DecidableEq K] {m : HashMap K V} (inv : Inv m) (key : K) :
    find_entry m key = some none ↔ find m key = some Iter.past := by
  rcases find_total inv key with ⟨hpast, habs⟩ | ⟨n, hn, e, hf⟩
  · exact ⟨fun _ => hpast, fun _ => find_entry_absent inv habs⟩
  · have h1 := find_entry_present inv hn
    rw [e] at h1
    constructor
    · intro h; rw [h1] at h; cases h
    · intro h; rw [hf] at h; cases h

theorem lookup_first [DecidableEq K] (k : K) (v : V) (post : List (K × V)) :
    ∀ pre : List (K × V), k ∉ pre.map Prod.fst →
      List.lookup k (pre ++ (k, v) :: post) = some v := by
  intro pre
  induction pre with
  | nil => intro _; rw [List.nil_append, lookup_cons_eq, if_pos rfl]
  | cons p rest ih =>
    intro h
    rw [List.map_cons, List.mem_cons, not_or] at h
    rw [List.cons_append, lookup_cons_eq, if_neg h.1]
    exact ih h.2

theorem construct_eq [DecidableEq K] (hasher : K → Nat) (l : List (K × V)) :
    construct hasher l = insertAll (HashMap.new hasher) l := rfl

/-- C11: for a reachable source `S` and any target `T`, `T = S` succeeds; in
the resulting state `find` designates, for every key, the same entry as in `S`
(or `end()` in both), the size is that of `S` and the hash function is that
of `S`.  The capacity can differ: copying a state of capacity 6 that holds one
entry gives capacity 3. -/
theorem copy_assign_equivalent [DecidableEq K] [Inhabited V] (S T : HashMap K V)
    (hr : Reachable S) :
    ∃ T1, operator_assign T S = some T1 ∧
      (∀ k, ∃ r, find_entry S k = some r ∧ find_entry T1 k = some r) ∧
      (∀ k, find T1 k = some Iter.past ↔ find S k = some Iter.past) ∧
      size T1 = size S ∧ T1.hasher = S.hasher ∧
      (∃ S0 T0 T2 : HashMap Nat Nat, Reachable S0 ∧ operator_assign T0 S0 = some T2 ∧
        T2.data.length ≠ S0.data.length) := by
  have inv := reachable_inv hr
  obtain ⟨T1, h1, inv1, hh, hmem, hsz⟩ :=
    insertAll_distinct_size (iterate S) _ (inv_fresh S.hasher T.heap)
      (by rw [keys_iterate]; exact inv.table.keys_nodup)
      (by intro _ _ n hn; cases hn)
  have hcongr : ∀ k, find_entry T1 k = find_entry S k := by
    intro k
    apply find_entry_congr inv inv1
    intro v
    rw [hmem]
    constructor
    · rintro (h | h)
      · exact h
      · simp [iterate] at h
    · exact Or.inl
  refine ⟨T1, h1, ?_, ?_, ?_, hh, ?_⟩
  · intro k
    obtain ⟨r, hr1⟩ := find_entry_total inv k
    exact ⟨r, hr1, by rw [hcongr, hr1]⟩
  · intro k
    rw [← find_entry_none_iff inv1, ← find_entry_none_iff inv, hcongr]
  · rw [hsz]
    simp [size, iterate]
  · exact ⟨exampleErased, HashMap.new fun k => k, _, exampleErased_reachable, rfl,
      by decide⟩

/-- C11, checked for the source holding keys 20, 10, 30 and the target holding
key 10. -/
theorem copy_assign_equivalent_witness :
    Reachable exampleThree ∧
    ∃ T1, operator_assign exampleOne exampleThree = some T1 ∧
      (∀ k, ∃ r, find_entry exampleThree k = some r ∧ find_entry T1 k = some r) ∧
      (∀ k, find T1 k = some Iter.past ↔ find exampleThree k = some Iter.past) ∧
      size T1 = size exampleThree ∧ T1.hasher = exampleThree.hasher ∧
      (∃ S0 T0 T2 : HashMap Nat Nat, Reachable S0 ∧ operator_assign T0 S0 = some T2 ∧
        T2.data.length ≠ S0.data.length) :=
  ⟨exampleThree_reachable,
   copy_assign_equivalent exampleThree exampleOne exampleThree_reachable⟩

/-- C12 (as amended): for a reachable source whose list is `x, y, z` and any
target, the copy-assignment succeeds, the copy has size 3, and iterating the
copy yields `y, x, z`: the second and the third insertion of the copy each
rebuild the table and reverse the list built so far. -/
theorem copy_of_three_order [DecidableEq K] [Inhabited V] (S T : HashMap K V)
    (x y z : K × V) (hr : Reachable S) (h3 : iterate S = [x, y, z]) :
    ∃ T1, operator_assign T S = some T1 ∧ size T1 = 3 ∧ iterate T1 = [y, x, z] := by
  have inv := reachable_inv hr
  have hnd : ((iterate S).map Prod.fst).Nodup := by
    rw [keys_iterate]; exact inv.table.keys_nodup
  rw [h3] at hnd
  simp only [List.map_cons, List.map_nil, List.nodup_cons, List.mem_cons, List.mem_singleton,
    List.not_mem_nil, not_or, or_false] at hnd
  obtain ⟨⟨hxy, hxz⟩, hyz⟩ := hnd
  obtain ⟨T1, h1, hi, _, _⟩ :=
    three_inserts_from (inv_fresh S.hasher T.heap) rfl (by simp [SZ]) rfl
      x.1 y.1 z.1 x.2 y.2 z.2 hxy hxz hyz.1
  refine ⟨T1, ?_, ?_, hi⟩
  · simp only [operator_assign, h3]
    exact h1
  · have := congrArg List.length hi
    simpa [iterate, size] using this

/-- C12, checked for the source holding keys 20, 10, 30 (in this order) and a
fresh target. -/
theorem copy_of_three_order_witness :
    (Reachable exampleThree ∧ iterate exampleThree = [(20, 2), (10, 1), (30, 3)]) ∧
    ∃ T1, operator_assign (HashMap.new fun k => k) exampleThree = some T1 ∧ size T1 = 3 ∧
      iterate T1 = [(10, 1), (20, 2), (30, 3)] :=
  ⟨⟨exampleThree_reachable, rfl⟩,
   copy_of_three_order exampleThree (HashMap.new fun k => k) (20, 2) (10, 1) (30, 3)
     exampleThree_reachable rfl⟩

/-- C12 as stated fails: the reachable source iterates as 20, 10, 30, and its
copy into a fresh map iterates as 10, 20, 30. -/
theorem copy_of_three_order_refuted :
    Reachable exampleThree ∧ iterate exampleThree = [(20, 2), (10, 1), (30, 3)] ∧
    (operator_assign (HashMap.new fun k => k) exampleThree).map iterate =
      some [(10, 1), (20, 2), (30, 3)] ∧
    ¬ ∃ T1, operator_assign (HashMap.new fun k => k) exampleThree = some T1 ∧
      size T1 = 3 ∧ iterate T1 = iterate exampleThree := by
  have h : (operator_assign (HashMap.new fun k => k) exampleThree).map iterate =
      some [(10, 1), (20, 2), (30, 3)] := rfl
  refine ⟨exampleThree_reachable, rfl, h, ?_⟩
  rintro ⟨T1, h1, _, hi⟩
  rw [h1, Option.map_some', hi] at h
  exact absurd h (by decide)

/-- C13: the constructors from a list `l` of pairs succeed for every hash
function; in the constructed map `find` designates, for a key occurring in
`l`, the first pair of `l` with this key, and is `end()` for every other key;
the size is the number of distinct keys of `l`. -/
theorem construct_first_wins [DecidableEq K] (hasher : K → Nat) (l : List (K × V)) :
    ∃ m, construct hasher l = some m ∧
      (∀ pre post k v, l = pre ++ (k, v) :: post → k ∉ pre.map Prod.fst →
        find_entry m k = some (some (k, v))) ∧
      (∀ k, k ∈ l.map Prod.fst →
        ∃ v, List.lookup k l = some v ∧ find_entry m k = some (some (k, v))) ∧
      (∀ k, k ∉ l.map Prod.fst → find m k = some Iter.past) ∧
      size m = (l.map Prod.fst).toFinset.card := by
  obtain ⟨m, h1, inv1, hmem⟩ := insertAll_lookup l (HashMap.new hasher) (inv_new hasher)
  have hmem2 : ∀ q : K × V, q ∈ iterate m ↔ List.lookup q.1 l = some q.2 := by
    intro q
    rw [hmem]
    simp [iterate, HashMap.new]
  have hkeys : ∀ k, k ∈ (iterate m).map Prod.fst ↔ k ∈ l.map Prod.fst := by
    intro k
    rw [← lookup_isSome_iff k l]
    constructor
    · intro hk
      obtain ⟨q, hq, e⟩ := List.mem_map.mp hk
      exact ⟨q.2, by rw [← e]; exact (hmem2 q).mp hq⟩
    · rintro ⟨v, hv⟩
      exact List.mem_map.mpr ⟨(k, v), (hmem2 (k, v)).mpr hv, rfl⟩
  refine ⟨m, by rw [construct_eq]; exact h1, ?_, ?_, ?_, ?_⟩
  · intro pre post k v hl hk
    have hlk : List.lookup k l = some v := by rw [hl]; exact lookup_first k v post pre hk
    exact find_entry_mem inv1 ((hmem2 (k, v)).mpr hlk)
  · intro k hk
    obtain ⟨v, hv⟩ := (lookup_isSome_iff k l).mpr hk
    exact ⟨v, hv, find_entry_mem inv1 ((hmem2 (k, v)).mpr hv)⟩
  · intro k hk
    apply find_absent inv1
    apply absent_iff.mpr
    rw [hkeys]; exact hk
  · have hnd : ((iterate m).map Prod.fst).Nodup := by
      rw [keys_iterate]; exact inv1.table.keys_nodup
    have : ((iterate m).map Prod.fst).toFinset = (l.map Prod.fst).toFinset :=
      List.toFinset.ext hkeys
    rw [← this, List.toFinset_card_of_nodup hnd]
    simp [iterate, size]

/-- C15 (as amended): for every hash function and pairwise distinct keys `a`,
`b`, `c`, starting from the fresh map (capacity 3, counter 0): the first
insertion runs no `rebuild` and leaves capacity 3 with counter 1; the second
(2 * 3 > 3) runs `rebuild` and gives capacity 6 with counter 2; the third
(3 * 3 > 6) runs `rebuild` again and gives capacity 12 with counter 3; then
`find(b)` designates `(b, vb)`. -/
theorem three_inserts_capacity [DecidableEq K] (hasher : K → Nat) (a b c : K) (va vb vc : V)
    (hab : a ≠ b) (hac : a ≠ c) (hbc : b ≠ c) :
    ∃ m1 m2 m3 ma2 ma3,
      (HashMap.new hasher : HashMap K V).cnt = 0 ∧
      (HashMap.new hasher : HashMap K V).data.length = 3 ∧
      insert (HashMap.new hasher) (a, va) = some m1 ∧
      insert_added (HashMap.new hasher) (a, va) = some m1 ∧
      m1.cnt = 1 ∧ m1.data.length = 3 ∧
      insert m1 (b, vb) = some m2 ∧ insert_added m1 (b, vb) = some ma2 ∧
      rebuild ma2 = some m2 ∧ m2.cnt = 2 ∧ m2.data.length = 6 ∧
      insert m2 (c, vc) = some m3 ∧ insert_added m2 (c, vc) = some ma3 ∧
      rebuild ma3 = some m3 ∧ m3.cnt = 3 ∧ m3.data.length = 12 ∧
      find_entry m3 b = some (some (b, vb)) := by
  have inv0 : Inv (HashMap.new hasher : HashMap K V) := inv_new hasher
  have hp0 : ∀ n, n ∈ (HashMap.new hasher : HashMap K V).elements → n.key ≠ a := by
    intro n hn; cases hn
  obtain ⟨_, ma1, _, _, _, hadd1, c1, d1, _, _, e1, _, hB1, _⟩ := insert_steps inv0 (a, va) hp0
  have hi1 := hB1 (by simp [HashMap.new, LOAD_FACTOR, SZ])
  obtain ⟨x1, hx1, inv1, _⟩ := insert_absent inv0 (a, va) hp0
  rw [hi1] at hx1; injection hx1 with hx1; subst hx1
  have l1 : ma1.data.length = 3 := by rw [d1, List.length_set]; rfl
  have c1b : ma1.cnt = 1 := by rw [c1]; rfl
  have it1 : iterate ma1 = [(a, va)] := by simp [iterate, e1, Node.entry, HashMap.new]
  have hp1 : ∀ n, n ∈ ma1.elements → n.key ≠ b :=
    absent_iff.mpr (by rw [it1]; simpa using hab.symm)
  obtain ⟨_, ma2, _, _, _, hadd2, _, _, _, _, e2, _, _, hA2⟩ := insert_steps inv1 (b, vb) hp1
  obtain ⟨m2, hr2, hi2, c2, l2, it2⟩ := hA2 (by rw [c1b, l1]; simp [LOAD_FACTOR])
  obtain ⟨x2, hx2, inv2, c2b, _⟩ := insert_absent inv1 (b, vb) hp1
  rw [hi2] at hx2; injection hx2 with hx2; subst hx2
  have it2b : iterate m2 = [(a, va), (b, vb)] := by
    rw [it2]
    have : iterate ma2 = (b, vb) :: iterate ma1 := by simp [iterate, e2, Node.entry]
    rw [this, it1]; rfl
  have hp2 : ∀ n, n ∈ m2.elements → n.key ≠ c :=
    absent_iff.mpr (by rw [it2b]; simpa using ⟨hac.symm, hbc.symm⟩)
  obtain ⟨_, ma3, _, _, _, hadd3, _, _, _, _, e3, _, _, hA3⟩ := insert_steps inv2 (c, vc) hp2
  obtain ⟨m3, hr3, hi3, c3, l3, it3⟩ :=
    hA3 (by rw [c2b, c1b, l2, l1]; simp [LOAD_FACTOR])
  obtain ⟨x3, hx3, inv3, c3b, _⟩ := insert_absent inv2 (c, vc) hp2
  rw [hi3] at hx3; injection hx3 with hx3; subst hx3
  have it3b : (b, vb) ∈ iterate m3 := by
    rw [it3]
    have : iterate ma3 = (c, vc) :: iterate m2 := by simp [iterate, e3, Node.entry]
    rw [this, it2b]; simp
  exact ⟨ma1, m2, m3, ma2, ma3, rfl, rfl, hi1, hadd1, c1b, l1, hi2, hadd2, hr2,
    by rw [c2b, c1b], by rw [l2, l1], hi3, hadd3, hr3, by rw [c3b, c2b, c1b],
    by rw [l3, l2, l1], find_entry_mem inv3 it3b⟩

/-- C15, checked on the keys 10, 20, 30 with the identity hash. -/
theorem three_inserts_capacity_witness :
    ((10 : Nat) ≠ 20 ∧ (10 : Nat) ≠ 30 ∧ (20 : Nat) ≠ 30) ∧
    ∃ m1 m2 m3 ma2 ma3,
      (HashMap.new (fun k => k) : HashMap Nat Nat).cnt = 0 ∧
      (HashMap.new (fun k => k) : HashMap Nat Nat).data.length = 3 ∧
      insert (HashMap.new fun k => k) ((10 : Nat), (1 : Nat)) = some m1 ∧
      insert_added (HashMap.new fun k => k) (10, 1) = some m1 ∧
      m1.cnt = 1 ∧ m1.data.length = 3 ∧
      insert m1 (20, 2) = some m2 ∧ insert_added m1 (20, 2) = some ma2 ∧
      rebuild ma2 = some m2 ∧ m2.cnt = 2 ∧ m2.data.length = 6 ∧
      insert m2 (30, 3) = some m3 ∧ insert_added m2 (30, 3) = some ma3 ∧
      rebuild ma3 = some m3 ∧ m3.cnt = 3 ∧ m3.data.length = 12 ∧
      find_entry m3 20 = some (some (20, 2)) :=
  ⟨by decide, three_inserts_capacity (fun k => k) 10 20 30 1 2 3 (by decide) (by decide)
    (by decide)⟩

/-- C15 as stated fails: with the identity hash and the keys 10, 20, 30 the
capacity is already 6 after the second insertion and is 12, not 6, after the
third. -/
theorem three_inserts_capacity_refuted :
    insert (HashMap.new fun k => k) (10, 1) = some exampleOne ∧
    insert exampleOne (20, 2) = some exampleTwo ∧
    insert exampleTwo (30, 3) = some exampleThree ∧
    exampleOne.data.length = 3 ∧ exampleTwo.data.length = 6 ∧
    exampleThree.data.length = 12 ∧
    ¬ ∃ m1 m2 m3, insert (HashMap.new fun k => k) ((10 : Nat), (1 : Nat)) = some m1 ∧
      insert m1 (20, 2) = some m2 ∧ insert m2 (30, 3) = some m3 ∧
      m2.data.length = 3 ∧ m3.data.length = 6 := by
  refine ⟨rfl, rfl, rfl, rfl, rfl, rfl, ?_⟩
  rintro ⟨m1, m2, m3, h1, h2, _, h4, _⟩
  rw [exampleOne_eq] at h1
  injection h1 with h1
  subst h1
  rw [exampleTwo_eq] at h2
  injection h2 with h2
  subst h2
  exact absurd h4 (by decide)

end HM
